import Mathlib

/-!
Shallow embedding of `src/indexes/btree.py` (a B-tree multimap with
`DEGREE = 16`) and verification of its specification claims.

Conventions of the embedding:
* Python's `SmartKey` is `SKey`; its mutable `value` list is `List Value`.
* Python's `Page` objects are immutable `Page` values; in-place mutation
  becomes functional update.  A Python method that mutates `self` and also
  returns a page is modelled as returning a pair
  `(mutated self, returned page)`; Python call sites that discard the
  return keep only the first component, while `BTree.remove` uses the
  second (this mirrors reference semantics exactly, because the reference
  code never aliases pages except through `self.children`).
* Python runtime errors (IndexError on out-of-range indexing,
  AttributeError for the missing `Page.close` method) and non-termination
  are modelled by `Option`: `none` means the Python call raises or the
  recursion fuel runs out.  Recursive page procedures take an explicit
  fuel argument; on every input on which the Python recursion terminates
  without error, the model returns `some` of the Python result for all
  sufficiently large fuel.
-/

abbrev Key := Int

abbrev Value := Int

/-- btree.py line 12: `DEGREE = 16`. -/
def DEGREE : Nat := 16

/-- btree.py lines 14-28: `SmartKey` pairs a key with the list of values
accumulated for that key.  Comparison (`__lt__`, `__eq__`) only looks at
the key. -/
structure SKey where
  key : Key
  value : List Value
deriving DecidableEq, Repr

instance : Inhabited SKey := ⟨⟨0, []⟩⟩

/-- Model of Python's stdlib `bisect.bisect_right(a, x)` (imported at
btree.py line 7) by its documented contract on a list sorted by key: the
insertion point that comes after (to the right of) any existing entries
equal to `x`, i.e. the length of the maximal prefix of entries `≤ x`.
All call sites in btree.py apply it to a node's `keys`, which the B-tree
invariant keeps sorted. -/
def bisect_right (a : List SKey) (k : Key) : Nat :=
  (a.takeWhile (fun e => decide (e.key ≤ k))).length

/-- btree.py lines 31-35: a `Page` is a node; `bottom` marks leaves. -/
inductive Page where
  | mk (bottom : Bool) (keys : List SKey) (children : List Page)

instance : Inhabited Page := ⟨Page.mk true [] []⟩

def Page.bottom : Page → Bool
  | .mk b _ _ => b

def Page.keys : Page → List SKey
  | .mk _ ks _ => ks

def Page.children : Page → List Page
  | .mk _ _ cs => cs

/-- btree.py lines 50-51: `is_external`. -/
def Page.is_external (p : Page) : Bool := p.bottom

/-- btree.py lines 84-85: `is_full` tests for exactly `2*DEGREE - 1` keys. -/
def Page.is_full (p : Page) : Bool := p.keys.length == DEGREE * 2 - 1

/-- The keys-list transformation performed by `Page.add_key_value`
(btree.py lines 37-48): wrap the value as a one-element list, and either
append to an empty node, extend the value list of an existing entry with
the same key, or insert a fresh entry at the bisect position. -/
def addKeys (l : List SKey) (k : Key) (v : Value) : List SKey :=
  if l.length = 0 then
    l ++ [⟨k, [v]⟩]
  else
    let i := bisect_right l k
    if i > 0 && ((l.getD (i - 1) default).key == k) then
      l.set (i - 1) ⟨(l.getD (i - 1) default).key, (l.getD (i - 1) default).value ++ [v]⟩
    else
      l.insertIdx i ⟨k, [v]⟩

/-- btree.py lines 37-48: `Page.add_key_value` mutates only `self.keys`. -/
def Page.add_key_value (p : Page) (k : Key) (v : Value) : Page :=
  Page.mk p.bottom (addKeys p.keys k v) p.children

/-- btree.py lines 53-76: `Page.find`.  Returns `some none` where Python
returns `None` ("not found"), `some (some vs)` for a hit, and `none` when
Python would raise (out-of-range indexing) or the fuel is exhausted. -/
def Page.find : Nat → Page → Key → Option (Option (List Value))
  | 0, _, _ => none
  | fuel + 1, p, k =>
    let i := bisect_right p.keys k
    if i = 0 then
      if p.children.length = 0 then some none
      else
        match p.keys[0]? with
        | none => none
        | some k0 =>
          if k0.key < k then
            match p.children[1]? with
            | none => none
            | some c => Page.find fuel c k
          else
            match p.children[0]? with
            | none => none
            | some c => Page.find fuel c k
    else
      match p.keys[i - 1]? with
      | none => none
      | some prevKey =>
        if prevKey.key == k then some (some prevKey.value)
        else if p.is_external then some none
        else if prevKey.key < k then
          match p.children[i]? with
          | none => none
          | some c => Page.find fuel c k
        else
          match p.children[i - 1]? with
          | none => none
          | some c => Page.find fuel c k

/-- btree.py lines 79-81: `Page.next` selects the child at the bisect
position (`none` models Python's IndexError). -/
def Page.next (p : Page) (k : Key) : Option Page :=
  p.children[bisect_right p.keys k]?

/-- btree.py lines 87-102: `Page.split` on a full page: promoted median
`keys[DEGREE-1]`, mutated self keeping `keys[:DEGREE-1]` and
`children[:DEGREE]`, and a new page of the same `bottom` kind taking
`keys[DEGREE:]` and `children[DEGREE:]`.  Returns
(promoted key, mutated self, new page).  Python would raise IndexError on
a page with fewer than `DEGREE` keys; the reference code only ever splits
full pages, and all theorems about `split` assume fullness. -/
def Page.split (p : Page) : SKey × Page × Page :=
  (p.keys.getD (DEGREE - 1) default,
   Page.mk p.bottom (p.keys.take (DEGREE - 1)) (p.children.take DEGREE),
   Page.mk p.bottom (p.keys.drop DEGREE) (p.children.drop DEGREE))

/-- btree.py lines 111-114: `find_predecessor` walks last children down to
a leaf and returns its last key (`none`: IndexError on an empty list, or
fuel exhausted). -/
def Page.find_predecessor : Nat → Page → Option SKey
  | 0, _ => none
  | fuel + 1, p =>
    if p.is_external then p.keys.getLast?
    else
      match p.children.getLast? with
      | none => none
      | some c => Page.find_predecessor fuel c

/-- btree.py lines 116-119: `find_successor`, symmetric to
`find_predecessor`. -/
def Page.find_successor : Nat → Page → Option SKey
  | 0, _ => none
  | fuel + 1, p =>
    if p.is_external then p.keys.head?
    else
      match p.children.head? with
      | none => none
      | some c => Page.find_successor fuel c

/-- btree.py lines 121-134: `Page.merge` builds a node from
`left.keys + [self.keys[ind]] + right.keys` (and the concatenated
children), pops the consumed separator and child slot from `self`, and
stores the merged node at `self.children[ind]`.  Returns
(mutated self, merged node). -/
def Page.merge (p : Page) (ind : Nat) (left right : Page) : Option (Page × Page) :=
  match p.keys[ind]? with
  | none => none
  | some sep =>
    let new_page : Page :=
      Page.mk (left.is_external && right.is_external)
        (left.keys ++ [sep] ++ right.keys)
        (left.children ++ right.children)
    if ind + 1 < p.children.length then
      some (Page.mk p.bottom (p.keys.eraseIdx ind)
              ((p.children.eraseIdx (ind + 1)).set ind new_page),
            new_page)
    else none

/-- btree.py lines 136-146: `borrow_from_left(kind, ind)` rotates the left
sibling's last key through the separator `keys[kind]` into child `ind`,
and (for internal children) migrates the sibling's last child.  The
reference only calls it with `ind > 0`; this model uses truncated `ind - 1`
where Python would wrap around to index `-1`. -/
def Page.borrow_from_left (p : Page) (kind ind : Nat) : Option Page :=
  match p.children[ind - 1]?, p.children[ind]?, p.keys[kind]? with
  | some left, some cur, some sepk =>
    match left.keys.getLast? with
    | none => none
    | some lk =>
      if cur.is_external then
        some (Page.mk p.bottom (p.keys.set kind lk)
          ((p.children.set (ind - 1)
              (Page.mk left.bottom left.keys.dropLast left.children)).set ind
            (Page.mk cur.bottom (sepk :: cur.keys) cur.children)))
      else
        match left.children.getLast? with
        | none => none
        | some lc =>
          some (Page.mk p.bottom (p.keys.set kind lk)
            ((p.children.set (ind - 1)
                (Page.mk left.bottom left.keys.dropLast left.children.dropLast)).set ind
              (Page.mk cur.bottom (sepk :: cur.keys) (lc :: cur.children))))
  | _, _, _ => none

/-- btree.py lines 149-159: `borrow_from_right(ind)` rotates the right
sibling's first key through the separator `keys[ind]` into child `ind`. -/
def Page.borrow_from_right (p : Page) (ind : Nat) : Option Page :=
  match p.children[ind + 1]?, p.children[ind]?, p.keys[ind]? with
  | some right, some cur, some sepk =>
    match right.keys.head? with
    | none => none
    | some rk =>
      if cur.is_external then
        some (Page.mk p.bottom (p.keys.set ind rk)
          ((p.children.set (ind + 1)
              (Page.mk right.bottom right.keys.tail right.children)).set ind
            (Page.mk cur.bottom (cur.keys ++ [sepk]) cur.children)))
      else
        match right.children.head? with
        | none => none
        | some rc =>
          some (Page.mk p.bottom (p.keys.set ind rk)
            ((p.children.set (ind + 1)
                (Page.mk right.bottom right.keys.tail right.children.tail)).set ind
              (Page.mk cur.bottom (cur.keys ++ [sepk]) (cur.children ++ [rc]))))
  | _, _, _ => none

/-- The keys-list transformation of the external case of `Page.remove`
(btree.py lines 163-168): pop the matched entry, if any. -/
def removeKeysLeaf (l : List SKey) (k : Key) : List SKey :=
  let i := bisect_right l k
  if i > 0 && ((l.getD (i - 1) default).key == k) then l.eraseIdx (i - 1)
  else l

/-- btree.py lines 161-211: `Page.remove`.  Returns
`some (mutated self, returned page)`; all recursive call sites in the
Python code discard the returned page (so only the first component flows
back into `self.children`), while `BTree.remove` assigns the returned
page to the root.  `none` models a Python runtime error (IndexError on an
internal page with no keys, etc.) or exhausted fuel. -/
def Page.remove : Nat → Page → Key → Option (Page × Page)
  | 0, _, _ => none
  | fuel + 1, p, k =>
    let i := bisect_right p.keys k
    if p.is_external then
      let p1 := Page.mk p.bottom (removeKeysLeaf p.keys k) p.children
      some (p1, p1)
    else
      let ind := i - 1
      match p.keys[ind]? with
      | none => none
      | some sep =>
        if sep.key == k then
          match p.children[ind]?, p.children[ind + 1]? with
          | some pred_ch, some succ_ch =>
            if DEGREE ≤ pred_ch.keys.length then
              match Page.find_predecessor fuel pred_ch with
              | none => none
              | some pk =>
                match Page.remove fuel pred_ch pk.key with
                | none => none
                | some pr =>
                  let p1 := Page.mk p.bottom (p.keys.set ind pk)
                              (p.children.set ind pr.1)
                  some (p1, p1)
            else if DEGREE ≤ succ_ch.keys.length then
              match Page.find_successor fuel succ_ch with
              | none => none
              | some sk =>
                match Page.remove fuel succ_ch sk.key with
                | none => none
                | some sr =>
                  let p1 := Page.mk p.bottom (p.keys.set ind sk)
                              (p.children.set (ind + 1) sr.1)
                  some (p1, p1)
            else
              match p.merge ind pred_ch succ_ch with
              | none => none
              | some m =>
                match Page.remove fuel m.2 k with
                | none => none
                | some mr =>
                  let p2 := Page.mk m.1.bottom m.1.keys (m.1.children.set ind mr.1)
                  if p2.keys.length = 0 then some (p2, mr.1)
                  else some (p2, p2)
          | _, _ => none
        else
          let needed := if sep.key < k then ind + 1 else ind
          match p.children[needed]? with
          | none => none
          | some ch =>
            if ch.keys.length = DEGREE - 1 then
              if needed + 1 < p.children.length &&
                  decide (DEGREE - 1 < ((p.children.getD (needed + 1) default).keys.length)) then
                match p.borrow_from_right needed with
                | none => none
                | some p1 =>
                  match Page.remove fuel p1 k with
                  | none => none
                  | some pr => some (pr.1, pr.1)
              else if 0 < needed &&
                  decide (DEGREE - 1 < ((p.children.getD (needed - 1) default).keys.length)) then
                match p.borrow_from_left ind needed with
                | none => none
                | some p1 =>
                  match Page.remove fuel p1 k with
                  | none => none
                  | some pr => some (pr.1, pr.1)
              else
                match p.children[ind]?, p.children[ind + 1]? with
                | some cl, some cr =>
                  match p.merge ind cl cr with
                  | none => none
                  | some m =>
                    match Page.remove fuel m.2 k with
                    | none => none
                    | some mr =>
                      let p2 := Page.mk m.1.bottom m.1.keys (m.1.children.set ind mr.1)
                      if p2.keys.length = 0 then some (p2, mr.1)
                      else
                        match Page.remove fuel p2 k with
                        | none => none
                        | some qr => some (qr.1, qr.1)
                | _, _ => none
            else
              match Page.remove fuel ch k with
              | none => none
              | some cr =>
                let p1 := Page.mk p.bottom p.keys (p.children.set needed cr.1)
                some (p1, p1)

/-- btree.py lines 215-221: a `BTree` owns a root page, initially an empty
leaf. -/
structure BTree where
  root : Page

/-- btree.py lines 217-221: `BTree.__init__`. -/
def BTree.new : BTree := ⟨Page.mk true [] []⟩

/-- btree.py lines 252-263: `BTree._put`.  When the page is external or
already holds the key, `add_key_value` is performed on this page.
Otherwise the Python code recurses into `self.next(key)`, splits the
child if it came back full, and then calls `nxt.close()` — but `Page`
defines no `close` method, so every descending insertion raises
AttributeError after its recursion returns; the model therefore yields
`none` on the descending branch. -/
def BTree.put (page : Page) (k : Key) (v : Value) : Option Page :=
  if page.is_external || page.keys.any (fun e => e.key == k) then
    some (page.add_key_value k v)
  else
    none

/-- btree.py lines 223-231: `BTree.add_key_value` runs `_put` from the
root and, if the root came back full, splits it and wraps the two halves
in a brand-new internal root holding the promoted key. -/
def BTree.add_key_value (t : BTree) (k : Key) (v : Value) : Option BTree :=
  match BTree.put t.root k v with
  | none => none
  | some r =>
    if r.is_full then
      some ⟨Page.mk false [r.split.1] [r.split.2.1, r.split.2.2]⟩
    else
      some ⟨r⟩

/-- btree.py lines 233-234: `BTree.find_key` delegates to the root. -/
def BTree.find_key (fuel : Nat) (t : BTree) (k : Key) : Option (Option (List Value)) :=
  Page.find fuel t.root k

/-- btree.py lines 236-237: `BTree.remove` replaces the root with the
page returned by `Page.remove`. -/
def BTree.remove (fuel : Nat) (t : BTree) (k : Key) : Option BTree :=
  (Page.remove fuel t.root k).map (fun pr => ⟨pr.2⟩)

/-- One row of btree.py's `print_tree` (lines 239-250): the key lists of
the pages on one level. -/
def levelRow (l : List Page) : List (List Key) :=
  l.map (fun p => p.keys.map (fun e => e.key))

/-- The level-order traversal loop of `print_tree` (btree.py lines
239-250): rows of key lists, root level first, until a level is empty. -/
def levelRows : Nat → List Page → List (List (List Key))
  | 0, _ => []
  | _, [] => []
  | fuel + 1, l => levelRow l :: levelRows fuel (l.map Page.children).flatten

/-- `print_tree` output shape for a tree: one row per level. -/
def BTree.levels (fuel : Nat) (t : BTree) : List (List (List Key)) :=
  levelRows fuel [t.root]

/-- A sequence of `add_key_value` calls starting from a given tree;
`none` as soon as one raises. -/
def runAdds : BTree → List (Key × Value) → Option BTree
  | t, [] => some t
  | t, (k, v) :: rest =>
    match t.add_key_value k v with
    | none => none
    | some t1 => runAdds t1 rest

/-- Ascending distinct keys `0, 1, …, n-1` paired with equal values. -/
def asc (n : Nat) : List (Key × Value) :=
  (List.range n).map (fun j => ((j : Int), (j : Int)))

/-- An operation on the public surface of the tree. -/
inductive Op where
  | ins (k : Key) (v : Value)
  | del (k : Key)
deriving DecidableEq, Repr

/-- Fuel used for `Page.remove` when replaying operation sequences.  On
every tree reachable from the empty tree the recursion depth of
`Page.remove` is at most 3 (a consequence of `remove_master` below), so any
fuel of at least 3 returns exactly the Python result; 9 is a convenient
fixed choice. -/
def REMOVE_FUEL : Nat := 9

/-- Replay a sequence of public-surface operations; `none` as soon as one
raises. -/
def runOps : BTree → List Op → Option BTree
  | t, [] => some t
  | t, Op.ins k v :: rest =>
    match t.add_key_value k v with
    | none => none
    | some t1 => runOps t1 rest
  | t, Op.del k :: rest =>
    match BTree.remove REMOVE_FUEL t k with
    | none => none
    | some t1 => runOps t1 rest

/-! ### Reference model: a sorted association list of keys to value lists -/

/-- Reference insertion into an association list ordered by key: extend
an existing entry's value list at the end, or insert a fresh one-value
entry at its ordered position. -/
def modelInsert : List SKey → Key → Value → List SKey
  | [], k, v => [⟨k, [v]⟩]
  | e :: t, k, v =>
    if k < e.key then ⟨k, [v]⟩ :: e :: t
    else if k = e.key then ⟨e.key, e.value ++ [v]⟩ :: t
    else e :: modelInsert t k v

/-- Reference removal: drop the first entry with the given key. -/
def modelErase : List SKey → Key → List SKey
  | [], _ => []
  | e :: t, k => if e.key = k then t else e :: modelErase t k

/-- Reference lookup: the value list of the first entry with the given
key. -/
def modelLookup : List SKey → Key → Option (List Value)
  | [], _ => none
  | e :: t, k => if e.key = k then some e.value else modelLookup t k

/-- The effect of an operation sequence on the reference model. -/
def applyOps : List Op → List SKey → List SKey
  | [], a => a
  | Op.ins k v :: rest, a => applyOps rest (modelInsert a k v)
  | Op.del k :: rest, a => applyOps rest (modelErase a k)

/-- The values inserted for key `k` by a sequence of operations, in
order. -/
def insVals (ops : List Op) (k : Key) : List Value :=
  ops.filterMap (fun op =>
    match op with
    | Op.ins k1 v => if k1 = k then some v else none
    | Op.del _ => none)

/-- Keys strictly increasing along the list (so in particular no
duplicate keys): the within-node ordering invariant of the B-tree. -/
def SSorted (l : List SKey) : Prop := l.Pairwise (fun a b => a.key < b.key)

instance (l : List SKey) : Decidable (SSorted l) := by
  unfold SSorted; infer_instance

/-! ### The shape invariant of API-reachable trees

Because every descending insertion raises (the missing `Page.close`
method), the only trees the public surface can ever produce are: a single
leaf root, or a two-level tree whose internal root carries exactly one
separator key between two leaves.  All general theorems about `find` and
`remove` quantify over these shapes. -/

/-- A well-formed leaf page: external, no children, sorted keys. -/
def leafShB (p : Page) : Bool :=
  p.bottom && p.children.isEmpty && decide (SSorted p.keys)

/-- A well-formed two-level page: an internal root with one separator key
and two well-formed leaves whose keys sit strictly on either side. -/
def twoShB (p : Page) : Bool :=
  match p with
  | Page.mk false [m] [l, r] =>
    leafShB l && leafShB r && l.keys.all (fun e => decide (e.key < m.key)) &&
      r.keys.all (fun e => decide (m.key < e.key))
  | _ => false

/-- The invariant maintained by the public surface. -/
def invB (t : BTree) : Bool := leafShB t.root || twoShB t.root

/-- The multiset of entries of a (shape-invariant) page, in key order. -/
def contents (p : Page) : List SKey :=
  match p with
  | Page.mk _ ks [l, r] => l.keys ++ ks ++ r.keys
  | Page.mk _ ks _ => ks

/-- The node built by `Page.merge` from a separator and two children. -/
def mergedNode (m : SKey) (l r : Page) : Page :=
  Page.mk (l.is_external && r.is_external) (l.keys ++ [m] ++ r.keys)
    (l.children ++ r.children)

/-- Trees reachable from the empty tree through the public surface
(`add_key_value` and `remove`).  `remove` is replayed at the fixed fuel
`REMOVE_FUEL`; on all reachable trees the recursion depth of
`Page.remove` is at most 3, so any fuel of at least 3 — in particular
`REMOVE_FUEL` — yields the Python result (when a fuelled run returns
`some`, no fuel was exhausted anywhere, so its answer is fuel-independent). -/
inductive Reachable : BTree → Prop
  | base : Reachable BTree.new
  | add {t t1 : BTree} {k : Key} {v : Value} : Reachable t →
      BTree.add_key_value t k v = some t1 → Reachable t1
  | del {t t1 : BTree} {k : Key} : Reachable t →
      BTree.remove REMOVE_FUEL t k = some t1 → Reachable t1

/-- Combine the values a key already has with the values appended later. -/
def combineVals (o : Option (List Value)) (vs : List Value) : Option (List Value) :=
  match o, vs with
  | none, [] => none
  | o, vs => some (o.getD [] ++ vs)

def scenOps : List Op :=
  [Op.ins 13 0, Op.ins 8 1, Op.ins 3 2, Op.ins 2 3, Op.ins 5 4, Op.ins 1 5, Op.ins 1 6]

def fullLeaf31 : Page :=
  Page.mk true ((List.range 31).map (fun j => ⟨(j : Int), [(j : Int)]⟩)) []

def C5L : List SKey := (List.range 16).map (fun j => ⟨(j : Int), [(j : Int)]⟩)

def C5R : List SKey := (List.range 15).map (fun j => ⟨(200 + j : Int), [(j : Int)]⟩)

def C5page : Page :=
  Page.mk false [⟨100, [9]⟩] [Page.mk true C5L [], Page.mk true C5R []]

/-- Modelled from the claim (C6 as stated): when the key is absent from
an internal node and the child that must contain it is at minimum, the
node is repaired (borrow from the right sibling if it has a surplus,
else borrow from the left sibling if it has a surplus, else merge the
child with its sibling), and after the repair the deletion is retried at
the current node.  This is what the claim describes; it differs from the
code, which in the merge case first deletes the key inside the merged
node and skips the retry entirely when the merge leaves the node with no
entries. -/
def claimedRepairRetry (fuel : Nat) (p : Page) (k : Key) : Option (Page × Page) :=
  let i := bisect_right p.keys k
  let ind := i - 1
  match p.keys[ind]? with
  | none => none
  | some sep =>
    let needed := if sep.key < k then ind + 1 else ind
    if needed + 1 < p.children.length &&
        decide (DEGREE - 1 < ((p.children.getD (needed + 1) default).keys.length)) then
      match p.borrow_from_right needed with
      | none => none
      | some p1 => Page.remove fuel p1 k
    else if 0 < needed &&
        decide (DEGREE - 1 < ((p.children.getD (needed - 1) default).keys.length)) then
      match p.borrow_from_left ind needed with
      | none => none
      | some p1 => Page.remove fuel p1 k
    else
      match p.children[ind]?, p.children[ind + 1]? with
      | some cl, some cr =>
        match p.merge ind cl cr with
        | none => none
        | some m => Page.remove fuel m.1 k
      | _, _ => none

def cexL : List SKey := (List.range 15).map (fun j => ⟨(j : Int), [(j : Int)]⟩)

def cexR : List SKey := (List.range 15).map (fun j => ⟨(200 + j : Int), [(j : Int)]⟩)

def cexPage : Page :=
  Page.mk false [⟨100, [9]⟩] [Page.mk true cexL [], Page.mk true cexR []]

def C6R : List SKey := (List.range 16).map (fun j => ⟨(200 + j : Int), [(j : Int)]⟩)

/-! ### Lemmas and claim theorems -/

theorem bisect_nil (k : Key) : bisect_right [] k = 0 := rfl

theorem bisect_cons (e : SKey) (t : List SKey) (k : Key) :
    bisect_right (e :: t) k = if e.key ≤ k then bisect_right t k + 1 else 0 := by
  by_cases h : e.key ≤ k <;> simp [bisect_right, List.takeWhile_cons, h]

theorem bisect_le_length (a : List SKey) (k : Key) : bisect_right a k ≤ a.length :=
  (List.takeWhile_prefix _).length_le

theorem ssorted_cons_iff {e : SKey} {t : List SKey} :
    SSorted (e :: t) ↔ (∀ f ∈ t, e.key < f.key) ∧ SSorted t := by
  unfold SSorted; exact List.pairwise_cons

theorem bisect_zero_absent {a : List SKey} {k : Key} (hs : SSorted a)
    (h : bisect_right a k = 0) : ∀ e ∈ a, k < e.key := by
  cases a with
  | nil => intro e he; cases he
  | cons f t =>
    rw [bisect_cons] at h
    by_cases hf : f.key ≤ k
    · simp [hf] at h
    · intro e he
      rcases List.mem_cons.mp he with rfl | het
      · exact lt_of_not_le hf
      · exact lt_trans (lt_of_not_le hf) ((ssorted_cons_iff.mp hs).1 e het)

theorem modelLookup_absent {a : List SKey} {k : Key}
    (h : ∀ e ∈ a, e.key ≠ k) : modelLookup a k = none := by
  induction a with
  | nil => rfl
  | cons e t ih =>
    have : e.key ≠ k := h e (List.mem_cons_self e t)
    simp [modelLookup, this]
    exact ih (fun f hf => h f (List.mem_cons_of_mem e hf))

theorem modelErase_absent {a : List SKey} {k : Key}
    (h : ∀ e ∈ a, e.key ≠ k) : modelErase a k = a := by
  induction a with
  | nil => rfl
  | cons e t ih =>
    have : e.key ≠ k := h e (List.mem_cons_self e t)
    simp [modelErase, this]
    exact ih (fun f hf => h f (List.mem_cons_of_mem e hf))

theorem modelErase_sublist (a : List SKey) (k : Key) : (modelErase a k).Sublist a := by
  induction a with
  | nil => simp [modelErase]
  | cons e t ih =>
    by_cases h : e.key = k
    · simp only [modelErase, if_pos h]
      exact List.sublist_cons_self e t
    · simpa [modelErase, h] using List.Sublist.cons₂ e ih

theorem ssorted_modelErase {a : List SKey} (hs : SSorted a) (k : Key) :
    SSorted (modelErase a k) :=
  List.Pairwise.sublist (modelErase_sublist a k) hs

theorem mem_modelInsert {a : List SKey} {k : Key} {v : Value} {f : SKey}
    (h : f ∈ modelInsert a k v) : f.key = k ∨ ∃ g ∈ a, f.key = g.key := by
  induction a with
  | nil =>
    simp [modelInsert] at h
    exact Or.inl (by simp [h])
  | cons e t ih =>
    by_cases h1 : k < e.key
    · simp [modelInsert, h1] at h
      rcases h with rfl | rfl | ht
      · exact Or.inl rfl
      · exact Or.inr ⟨f, List.mem_cons_self f t, rfl⟩
      · exact Or.inr ⟨f, List.mem_cons_of_mem e ht, rfl⟩
    · by_cases h2 : k = e.key
      · simp [modelInsert, h1, h2] at h
        rcases h with rfl | ht
        · exact Or.inl (by simpa using h2.symm)
        · exact Or.inr ⟨f, List.mem_cons_of_mem e ht, rfl⟩
      · simp [modelInsert, h1, h2] at h
        rcases h with rfl | ht
        · exact Or.inr ⟨f, List.mem_cons_self f t, rfl⟩
        · rcases ih ht with hk | ⟨g, hg, hfg⟩
          · exact Or.inl hk
          · exact Or.inr ⟨g, List.mem_cons_of_mem e hg, hfg⟩

theorem ssorted_modelInsert {a : List SKey} (hs : SSorted a) (k : Key) (v : Value) :
    SSorted (modelInsert a k v) := by
  induction a with
  | nil => simp [modelInsert, SSorted]
  | cons e t ih =>
    rcases ssorted_cons_iff.mp hs with ⟨he, ht⟩
    by_cases h1 : k < e.key
    · rw [modelInsert]
      simp only [if_pos h1]
      refine ssorted_cons_iff.mpr ⟨?_, hs⟩
      intro f hf
      rcases List.mem_cons.mp hf with rfl | hft
      · exact h1
      · exact lt_trans h1 (he f hft)
    · by_cases h2 : k = e.key
      · rw [modelInsert]
        simp only [if_neg h1, if_pos h2]
        exact ssorted_cons_iff.mpr ⟨he, ht⟩
      · rw [modelInsert]
        simp only [if_neg h1, if_neg h2]
        refine ssorted_cons_iff.mpr ⟨?_, ih ht⟩
        intro f hf
        rcases mem_modelInsert hf with hk | ⟨g, hg, hfg⟩
        · rw [hk]; exact lt_of_le_of_ne (le_of_not_lt h1) (Ne.symm h2)
        · rw [hfg]; exact he g hg

theorem modelLookup_insert_self {a : List SKey} (hs : SSorted a) (k : Key) (v : Value) :
    modelLookup (modelInsert a k v) k = some ((modelLookup a k).getD [] ++ [v]) := by
  induction a with
  | nil => simp [modelInsert, modelLookup]
  | cons e t ih =>
    rcases ssorted_cons_iff.mp hs with ⟨he, ht⟩
    rcases lt_trichotomy k e.key with h1 | h1 | h1
    · have habs : modelLookup t k = none :=
        modelLookup_absent (fun f hf => ne_of_gt (lt_trans h1 (he f hf)))
      simp [modelInsert, modelLookup, h1, ne_of_gt h1, habs]
    · subst h1
      simp [modelInsert, modelLookup]
    · have hne : e.key ≠ k := ne_of_lt h1
      simp [modelInsert, modelLookup, not_lt.mpr (le_of_lt h1), (ne_of_gt h1), hne, ih ht]

theorem modelLookup_insert_ne (a : List SKey) {k1 k2 : Key} (h : k1 ≠ k2) (v : Value) :
    modelLookup (modelInsert a k1 v) k2 = modelLookup a k2 := by
  induction a with
  | nil => simp [modelInsert, modelLookup, h]
  | cons e t ih =>
    rcases lt_trichotomy k1 e.key with h1 | h1 | h1
    · simp [modelInsert, modelLookup, h1, h]
    · have h2 : e.key ≠ k2 := h1 ▸ h
      simp [modelInsert, modelLookup, not_lt.mpr (le_of_eq h1.symm), h1, h2, h]
    · simp [modelInsert, modelLookup, not_lt.mpr (le_of_lt h1), ne_of_gt h1, ih]

theorem modelLookup_erase_self {a : List SKey} (hs : SSorted a) (k : Key) :
    modelLookup (modelErase a k) k = none := by
  induction a with
  | nil => rfl
  | cons e t ih =>
    rcases ssorted_cons_iff.mp hs with ⟨he, ht⟩
    by_cases h : e.key = k
    · simp only [modelErase, if_pos h]
      exact modelLookup_absent (fun f hf => ne_of_gt (h ▸ he f hf))
    · simp [modelErase, modelLookup, h, ih ht]

theorem modelLookup_erase_ne (a : List SKey) {k1 k2 : Key} (h : k1 ≠ k2) :
    modelLookup (modelErase a k1) k2 = modelLookup a k2 := by
  induction a with
  | nil => rfl
  | cons e t ih =>
    by_cases h1 : e.key = k1
    · have : e.key ≠ k2 := by rw [h1]; exact h
      simp [modelErase, modelLookup, h1, this, h]
    · simp [modelErase, modelLookup, h1, ih]

theorem bisect_absent_zero {a : List SKey} {k : Key}
    (h : ∀ e ∈ a, k < e.key) : bisect_right a k = 0 := by
  cases a with
  | nil => rfl
  | cons e t =>
    rw [bisect_cons, if_neg (not_le.mpr (h e (List.mem_cons_self e t)))]

theorem bisect_found {a : List SKey} {k : Key} {j : Nat} {e : SKey} (hs : SSorted a)
    (hj : a[j]? = some e) (hek : e.key = k) : bisect_right a k = j + 1 := by
  induction a generalizing j with
  | nil => simp at hj
  | cons f t ih =>
    rcases ssorted_cons_iff.mp hs with ⟨hf, ht⟩
    cases j with
    | zero =>
      rw [List.getElem?_cons_zero, Option.some_inj] at hj
      subst hj
      rw [bisect_cons, if_pos (le_of_eq hek)]
      have : bisect_right t k = 0 :=
        bisect_absent_zero (fun g hg => hek ▸ hf g hg)
      rw [this]
    | succ j1 =>
      rw [List.getElem?_cons_succ] at hj
      have hmem : e ∈ t := by
        rcases List.getElem?_eq_some.mp hj with ⟨hlt, hget⟩
        exact hget ▸ List.getElem_mem hlt
      have : f.key ≤ k := le_of_lt (hek ▸ hf e hmem)
      rw [bisect_cons, if_pos this, ih ht hj]

theorem modelInsert_absent {a : List SKey} (hs : SSorted a) {k : Key}
    (h : ∀ e ∈ a, e.key ≠ k) (v : Value) :
    modelInsert a k v = a.insertIdx (bisect_right a k) ⟨k, [v]⟩ := by
  induction a with
  | nil => simp [modelInsert, bisect_nil]
  | cons e t ih =>
    rcases ssorted_cons_iff.mp hs with ⟨he, ht⟩
    rcases lt_trichotomy k e.key with h1 | h1 | h1
    · rw [bisect_cons, if_neg (not_le.mpr h1)]
      simp [modelInsert, h1]
    · exact absurd h1.symm (h e (List.mem_cons_self e t))
    · rw [bisect_cons, if_pos (le_of_lt h1)]
      rw [modelInsert, if_neg (not_lt.mpr (le_of_lt h1)), if_neg (ne_of_gt h1),
        List.insertIdx_succ_cons, ih ht (fun f hf => h f (List.mem_cons_of_mem e hf))]

theorem modelInsert_present {a : List SKey} (hs : SSorted a) {j : Nat} {e : SKey} {k : Key}
    (hj : a[j]? = some e) (hek : e.key = k) (v : Value) :
    modelInsert a k v = a.set j ⟨e.key, e.value ++ [v]⟩ := by
  induction a generalizing j with
  | nil => simp at hj
  | cons f t ih =>
    rcases ssorted_cons_iff.mp hs with ⟨hf, ht⟩
    cases j with
    | zero =>
      rw [List.getElem?_cons_zero, Option.some_inj] at hj
      subst hj
      subst hek
      simp [modelInsert]
    | succ j1 =>
      rw [List.getElem?_cons_succ] at hj
      have hmem : e ∈ t := by
        rcases List.getElem?_eq_some.mp hj with ⟨hlt, hget⟩
        exact hget ▸ List.getElem_mem hlt
      have hfk : f.key < k := hek ▸ hf e hmem
      rw [modelInsert, if_neg (not_lt.mpr (le_of_lt hfk)), if_neg (Ne.symm (ne_of_lt hfk)),
        List.set_cons_succ, ih ht hj]

theorem modelErase_present {a : List SKey} (hs : SSorted a) {j : Nat} {e : SKey} {k : Key}
    (hj : a[j]? = some e) (hek : e.key = k) :
    modelErase a k = a.eraseIdx j := by
  induction a generalizing j with
  | nil => simp at hj
  | cons f t ih =>
    rcases ssorted_cons_iff.mp hs with ⟨hf, ht⟩
    cases j with
    | zero =>
      rw [List.getElem?_cons_zero, Option.some_inj] at hj
      subst hj
      subst hek
      simp [modelErase]
    | succ j1 =>
      rw [List.getElem?_cons_succ] at hj
      have hmem : e ∈ t := by
        rcases List.getElem?_eq_some.mp hj with ⟨hlt, hget⟩
        exact hget ▸ List.getElem_mem hlt
      have hfk : f.key < k := hek ▸ hf e hmem
      rw [modelErase, if_neg (ne_of_lt hfk), List.eraseIdx_cons_succ, ih ht hj]

theorem getD_of_getElem? {a : List SKey} {j : Nat} {e : SKey}
    (hj : a[j]? = some e) : a.getD j default = e := by
  rw [List.getD_eq_getElem?_getD, hj, Option.getD_some]

theorem bisect_pos_elem {a : List SKey} {k : Key} (h : 0 < bisect_right a k) :
    ∃ e, a[bisect_right a k - 1]? = some e ∧ e ∈ a ∧ e.key ≤ k := by
  have hlt : bisect_right a k - 1 < a.length :=
    lt_of_lt_of_le (Nat.sub_lt h Nat.one_pos) (bisect_le_length a k)
  have hlt2 : bisect_right a k - 1 < (a.takeWhile (fun e => decide (e.key ≤ k))).length :=
    Nat.sub_lt h Nat.one_pos
  refine ⟨a[bisect_right a k - 1], List.getElem?_eq_getElem hlt, List.getElem_mem hlt, ?_⟩
  have hpre : (a.takeWhile (fun e => decide (e.key ≤ k))).IsPrefix a :=
    List.takeWhile_prefix _
  have hget : (a.takeWhile (fun e => decide (e.key ≤ k)))[bisect_right a k - 1] =
      a[bisect_right a k - 1] := List.IsPrefix.getElem hpre hlt2
  have hmm := List.mem_takeWhile_imp (List.getElem_mem hlt2)
  rw [hget] at hmm
  exact of_decide_eq_true hmm

theorem addKeys_eq_modelInsert {a : List SKey} (hs : SSorted a) (k : Key) (v : Value) :
    addKeys a k v = modelInsert a k v := by
  by_cases hmem : ∃ e ∈ a, e.key = k
  · rcases hmem with ⟨e, hmem, hek⟩
    rcases List.getElem?_of_mem hmem with ⟨j, hj⟩
    have hb : bisect_right a k = j + 1 := bisect_found hs hj hek
    have hlen : a.length ≠ 0 := by
      intro h0
      rw [List.length_eq_zero] at h0
      subst h0; simp at hj
    rw [addKeys, if_neg hlen]
    simp only [hb, Nat.add_sub_cancel, getD_of_getElem? hj]
    rw [if_pos (by simp [hek]), modelInsert_present hs hj hek]
  · push_neg at hmem
    rw [modelInsert_absent hs hmem]
    by_cases hlen : a.length = 0
    · rw [List.length_eq_zero] at hlen
      subst hlen
      simp [addKeys, bisect_nil]
    · rw [addKeys, if_neg hlen]
      by_cases hpos : 0 < bisect_right a k
      · rcases bisect_pos_elem hpos with ⟨e, hj, hm, _⟩
        have hne : (a.getD (bisect_right a k - 1) default).key ≠ k := by
          rw [getD_of_getElem? hj]; exact hmem e hm
        have hcond : ¬((decide (bisect_right a k > 0) &&
            ((a.getD (bisect_right a k - 1) default).key == k)) = true) := by
          simp only [Bool.and_eq_true, beq_iff_eq, decide_eq_true_eq]
          rintro ⟨-, h2⟩
          exact hne h2
        rw [if_neg hcond]
      · have h0 : bisect_right a k = 0 := Nat.eq_zero_of_not_pos hpos
        simp [h0]

theorem removeKeysLeaf_eq_modelErase {a : List SKey} (hs : SSorted a) (k : Key) :
    removeKeysLeaf a k = modelErase a k := by
  by_cases hmem : ∃ e ∈ a, e.key = k
  · rcases hmem with ⟨e, hmem, hek⟩
    rcases List.getElem?_of_mem hmem with ⟨j, hj⟩
    have hb : bisect_right a k = j + 1 := bisect_found hs hj hek
    rw [removeKeysLeaf]
    simp only [hb, Nat.add_sub_cancel, getD_of_getElem? hj]
    rw [if_pos (by simp [hek]), modelErase_present hs hj hek]
  · push_neg at hmem
    rw [modelErase_absent hmem, removeKeysLeaf]
    by_cases hpos : 0 < bisect_right a k
    · rcases bisect_pos_elem hpos with ⟨e, hj, hm, _⟩
      have hne : (a.getD (bisect_right a k - 1) default).key ≠ k := by
        rw [getD_of_getElem? hj]; exact hmem e hm
      have hcond : ¬((decide (bisect_right a k > 0) &&
          ((a.getD (bisect_right a k - 1) default).key == k)) = true) := by
        simp only [Bool.and_eq_true, beq_iff_eq, decide_eq_true_eq]
        rintro ⟨-, h2⟩
        exact hne h2
      rw [if_neg hcond]
    · have h0 : bisect_right a k = 0 := Nat.eq_zero_of_not_pos hpos
      simp [h0]

theorem modelLookup_present {a : List SKey} (hs : SSorted a) {e : SKey} {k : Key}
    (he : e ∈ a) (hek : e.key = k) : modelLookup a k = some e.value := by
  induction a with
  | nil => cases he
  | cons f t ih =>
    rcases ssorted_cons_iff.mp hs with ⟨hf, ht⟩
    rcases List.mem_cons.mp he with rfl | het
    · simp [modelLookup, hek]
    · have : f.key ≠ k := ne_of_lt (hek ▸ hf e het)
      simp [modelLookup, this, ih ht het]

theorem modelErase_append_absent_left {X Y : List SKey} {k : Key}
    (h : ∀ e ∈ X, e.key ≠ k) : modelErase (X ++ Y) k = X ++ modelErase Y k := by
  induction X with
  | nil => rfl
  | cons e t ih =>
    have : e.key ≠ k := h e (List.mem_cons_self e t)
    simp only [List.cons_append, modelErase, if_neg this, List.cons_inj_right]
    exact ih (fun f hf => h f (List.mem_cons_of_mem e hf))

theorem modelErase_append_absent_right {X Y : List SKey} {k : Key}
    (h : ∀ e ∈ Y, e.key ≠ k) : modelErase (X ++ Y) k = modelErase X k ++ Y := by
  induction X with
  | nil => simp [modelErase, modelErase_absent h]
  | cons e t ih =>
    by_cases he : e.key = k
    · simp [modelErase, he]
    · simp only [List.cons_append, modelErase, if_neg he, List.cons_inj_right]
      exact ih

theorem modelLookup_append_sep {L R : List SKey} {m : SKey} {k : Key}
    (hL : ∀ e ∈ L, e.key < m.key) (hR : ∀ e ∈ R, m.key < e.key) :
    modelLookup (L ++ m :: R) k =
      if k < m.key then modelLookup L k
      else if k = m.key then some m.value
      else modelLookup R k := by
  induction L with
  | nil =>
    rcases lt_trichotomy k m.key with h1 | h1 | h1
    · have : modelLookup R k = none :=
        modelLookup_absent (fun f hf => ne_of_gt (lt_trans h1 (hR f hf)))
      simp [modelLookup, h1, ne_of_gt h1, this]
    · simp [modelLookup, h1, not_lt.mpr (le_of_eq h1.symm)]
    · simp [modelLookup, ne_of_lt h1, not_lt.mpr (le_of_lt h1), ne_of_gt h1]
  | cons e t ih =>
    have het : ∀ f ∈ t, f.key < m.key := fun f hf => hL f (List.mem_cons_of_mem e hf)
    by_cases hek : e.key = k
    · have hkm : k < m.key := hek ▸ hL e (List.mem_cons_self e t)
      simp [modelLookup, hek, hkm]
    · have hstep : modelLookup ((e :: t) ++ m :: R) k = modelLookup (t ++ m :: R) k := by
        simp [modelLookup, hek]
      rw [hstep, ih het]
      rcases lt_trichotomy k m.key with h1 | h1 | h1
      · simp [h1, modelLookup, hek]
      · simp [h1, not_lt.mpr (le_of_eq h1.symm)]
      · simp [not_lt.mpr (le_of_lt h1), ne_of_gt h1]

theorem modelInsert_append_mid {L R : List SKey} {m : SKey} {k : Key} (v : Value)
    (hL : ∀ e ∈ L, e.key < k) (hk : k = m.key) :
    modelInsert (L ++ m :: R) k v = L ++ ⟨m.key, m.value ++ [v]⟩ :: R := by
  induction L with
  | nil =>
    subst hk
    simp [modelInsert]
  | cons e t ih =>
    have he : e.key < k := hL e (List.mem_cons_self e t)
    simp only [List.cons_append, modelInsert, if_neg (not_lt.mpr (le_of_lt he)),
      if_neg (Ne.symm (ne_of_lt he)), List.cons_inj_right]
    exact ih (fun f hf => hL f (List.mem_cons_of_mem e hf))

theorem bisect_all_present {a : List SKey} (hs : SSorted a) {k : Key}
    (h : ∃ e ∈ a, e.key = k) :
    ∃ j e, a[j]? = some e ∧ e.key = k ∧ bisect_right a k = j + 1 := by
  rcases h with ⟨e, hmem, hek⟩
  rcases List.getElem?_of_mem hmem with ⟨j, hj⟩
  exact ⟨j, e, hj, hek, bisect_found hs hj hek⟩

theorem modelLookup_none_of_bisect {a : List SKey} (hs : SSorted a) {k : Key}
    {e : SKey} (hj : a[bisect_right a k - 1]? = some e) (hek : e.key ≠ k) :
    modelLookup a k = none := by
  apply modelLookup_absent
  intro f hf hfk
  rcases bisect_all_present hs ⟨f, hf, hfk⟩ with ⟨j, g, hjg, hgk, hb⟩
  rw [hb, Nat.add_sub_cancel, hjg, Option.some_inj] at hj
  exact hek (hj ▸ hgk)

theorem find_leaf (fuel : Nat) {a : List SKey} (hs : SSorted a) (k : Key) :
    Page.find (fuel + 1) (Page.mk true a []) k = some (modelLookup a k) := by
  by_cases hpos : bisect_right a k = 0
  · have : modelLookup a k = none :=
      modelLookup_absent (fun e he => ne_of_gt (bisect_zero_absent hs hpos e he))
    simp [Page.find, Page.keys, Page.children, hpos, this]
  · rcases bisect_pos_elem (Nat.pos_of_ne_zero hpos) with ⟨e, hj, hm, hle⟩
    by_cases hek : e.key = k
    · have : modelLookup a k = some e.value := modelLookup_present hs hm hek
      simp [Page.find, Page.keys, Page.children, hpos, hj, hek, this]
    · have : modelLookup a k = none := modelLookup_none_of_bisect hs hj hek
      simp [Page.find, Page.keys, Page.children, Page.is_external, Page.bottom,
        hpos, hj, hek, this]

theorem Page.eta (p : Page) : Page.mk p.bottom p.keys p.children = p := by
  cases p; rfl

theorem leafShB_iff {p : Page} :
    leafShB p = true ↔ p.bottom = true ∧ p.children = [] ∧ SSorted p.keys := by
  simp [leafShB, List.isEmpty_iff, and_assoc]

theorem leafShB_mk {a : List SKey} (hs : SSorted a) :
    leafShB (Page.mk true a []) = true := by
  simp [leafShB, Page.bottom, Page.children, Page.keys, hs]

theorem twoShB_mk {m : SKey} {L R : List SKey} (hL : SSorted L) (hR : SSorted R)
    (hsepL : ∀ e ∈ L, e.key < m.key) (hsepR : ∀ e ∈ R, m.key < e.key) :
    twoShB (Page.mk false [m] [Page.mk true L [], Page.mk true R []]) = true := by
  simp [twoShB, leafShB_mk hL, leafShB_mk hR, Page.keys, List.all_eq_true]
  exact ⟨fun e he => hsepL e he, fun e he => hsepR e he⟩

theorem twoShB_elim {p : Page} (h : twoShB p = true) :
    ∃ m L R, p = Page.mk false [m] [Page.mk true L [], Page.mk true R []] ∧
      SSorted L ∧ SSorted R ∧ (∀ e ∈ L, e.key < m.key) ∧
      (∀ e ∈ R, m.key < e.key) := by
  cases p with
  | mk b ks cs =>
    cases b
    case true => simp [twoShB] at h
    case false =>
    match ks, cs with
    | [], _ => simp [twoShB] at h
    | [m], [] => simp [twoShB] at h
    | [m], [c] => simp [twoShB] at h
    | [m], l :: r :: c3 :: cs1 => simp [twoShB] at h
    | [m], [l, r] =>
      obtain ⟨lb, lks, lcs⟩ := l
      obtain ⟨rb, rks, rcs⟩ := r
      simp only [twoShB, Bool.and_eq_true, List.all_eq_true] at h
      obtain ⟨⟨⟨hl, hr⟩, hL⟩, hR⟩ := h
      rw [leafShB_iff] at hl hr
      simp only [Page.bottom, Page.children, Page.keys] at hl hr hL hR
      obtain ⟨hlb, hlc, hls⟩ := hl
      obtain ⟨hrb, hrc, hrs⟩ := hr
      subst hlb; subst hlc; subst hrb; subst hrc
      exact ⟨m, lks, rks, rfl, hls, hrs, fun e he => of_decide_eq_true (hL e he),
        fun e he => of_decide_eq_true (hR e he)⟩
    | k1 :: k2 :: ks1, _ => simp [twoShB] at h

theorem contents_leaf (b : Bool) (a : List SKey) : contents (Page.mk b a []) = a := rfl

theorem contents_two (b : Bool) (a : List SKey) (l r : Page) :
    contents (Page.mk b a [l, r]) = l.keys ++ a ++ r.keys := rfl

theorem ssorted_contents_two {m : SKey} {L R : List SKey} (hL : SSorted L)
    (hR : SSorted R) (hsepL : ∀ e ∈ L, e.key < m.key)
    (hsepR : ∀ e ∈ R, m.key < e.key) : SSorted (L ++ m :: R) := by
  unfold SSorted
  rw [List.pairwise_append]
  refine ⟨hL, ?_, ?_⟩
  · rw [List.pairwise_cons]
    exact ⟨hsepR, hR⟩
  · intro a ha b hb
    rcases List.mem_cons.mp hb with rfl | hbR
    · exact hsepL a ha
    · exact lt_trans (hsepL a ha) (hsepR b hbR)

theorem bisect_single (m : SKey) (k : Key) :
    bisect_right [m] k = if m.key ≤ k then 1 else 0 := by
  rw [bisect_cons]
  by_cases h : m.key ≤ k <;> simp [h, bisect_nil]

theorem find_two_dispatch (fuel : Nat) (m : SKey) (l r : Page) (k : Key) :
    Page.find (fuel + 1) (Page.mk false [m] [l, r]) k =
      if k < m.key then Page.find fuel l k
      else if k = m.key then some (some m.value)
      else Page.find fuel r k := by
  rcases lt_trichotomy k m.key with h1 | h1 | h1
  · have hb : bisect_right [m] k = 0 := by
      rw [bisect_single, if_neg (not_le.mpr h1)]
    simp [Page.find, Page.keys, Page.children, hb, not_lt.mpr (le_of_lt h1), h1]
  · have hb : bisect_right [m] k = 1 := by
      rw [bisect_single, if_pos (le_of_eq h1.symm)]
    simp [Page.find, Page.keys, Page.children, hb, h1.symm, lt_irrefl]
  · have hb : bisect_right [m] k = 1 := by
      rw [bisect_single, if_pos (le_of_lt h1)]
    simp [Page.find, Page.keys, Page.children, Page.is_external, Page.bottom, hb,
      ne_of_lt h1, h1, not_lt.mpr (le_of_lt h1), Ne.symm (ne_of_gt h1)]
    rw [if_neg (ne_of_gt h1)]

theorem find_twolevel (fuel : Nat) {m : SKey} {L R : List SKey} (hL : SSorted L)
    (hR : SSorted R) (hsepL : ∀ e ∈ L, e.key < m.key)
    (hsepR : ∀ e ∈ R, m.key < e.key) (k : Key) :
    Page.find (fuel + 2) (Page.mk false [m] [Page.mk true L [], Page.mk true R []]) k =
      some (modelLookup (L ++ m :: R) k) := by
  rw [show fuel + 2 = (fuel + 1) + 1 from rfl, find_two_dispatch,
    modelLookup_append_sep hsepL hsepR]
  rcases lt_trichotomy k m.key with h1 | h1 | h1
  · rw [if_pos h1, if_pos h1, find_leaf fuel hL]
  · rw [if_neg (by rw [h1]; exact lt_irrefl m.key), if_pos h1,
      if_neg (by rw [h1]; exact lt_irrefl m.key), if_pos h1]
  · rw [if_neg (not_lt.mpr (le_of_lt h1)), if_neg (ne_of_gt h1),
      if_neg (not_lt.mpr (le_of_lt h1)), if_neg (ne_of_gt h1), find_leaf fuel hR]

theorem ssorted_contents {p : Page} (h : leafShB p = true ∨ twoShB p = true) :
    SSorted (contents p) := by
  rcases h with h | h
  · obtain ⟨b, ks, cs⟩ := p
    obtain ⟨hb, hc, hs⟩ := leafShB_iff.mp h
    simp only [Page.children] at hc
    subst hc
    exact hs
  · obtain ⟨m, L, R, rfl, hL, hR, hsepL, hsepR⟩ := twoShB_elim h
    rw [contents_two]
    simp only [Page.keys]
    have : L ++ [m] ++ R = L ++ m :: R := by simp
    rw [this]
    exact ssorted_contents_two hL hR hsepL hsepR

theorem find_char {p : Page} (h : leafShB p = true ∨ twoShB p = true)
    (fuel : Nat) (k : Key) :
    Page.find (fuel + 2) p k = some (modelLookup (contents p) k) := by
  rcases h with h | h
  · obtain ⟨b, ks, cs⟩ := p
    obtain ⟨hb, hc, hs⟩ := leafShB_iff.mp h
    simp only [Page.bottom] at hb
    simp only [Page.children] at hc
    simp only [Page.keys] at hs
    subst hb; subst hc
    rw [contents_leaf, show fuel + 2 = (fuel + 1) + 1 from rfl, find_leaf (fuel + 1) hs]
  · obtain ⟨m, L, R, rfl, hL, hR, hsepL, hsepR⟩ := twoShB_elim h
    rw [contents_two]
    simp only [Page.keys]
    have : L ++ [m] ++ R = L ++ m :: R := by simp
    rw [this, find_twolevel fuel hL hR hsepL hsepR]

theorem sorted_split_decomp {B : List SKey} (hs : SSorted B)
    (h15 : DEGREE - 1 < B.length) :
    B = B.take (DEGREE - 1) ++ B.getD (DEGREE - 1) default :: B.drop DEGREE ∧
    SSorted (B.take (DEGREE - 1)) ∧ SSorted (B.drop DEGREE) ∧
    (∀ e ∈ B.take (DEGREE - 1), e.key < (B.getD (DEGREE - 1) default).key) ∧
    (∀ e ∈ B.drop DEGREE, (B.getD (DEGREE - 1) default).key < e.key) := by
  have hg : B.getD (DEGREE - 1) default = B[DEGREE - 1] := by
    rw [List.getD_eq_getElem?_getD, List.getElem?_eq_getElem h15, Option.getD_some]
  have hdec : B.drop (DEGREE - 1) = B[DEGREE - 1] :: B.drop DEGREE := by
    have := List.drop_eq_getElem_cons h15
    rw [show DEGREE - 1 + 1 = DEGREE from rfl] at this
    exact this
  have hB : B = B.take (DEGREE - 1) ++ B[DEGREE - 1] :: B.drop DEGREE := by
    conv_lhs => rw [← List.take_append_drop (DEGREE - 1) B]
    rw [hdec]
  have hs2 : SSorted (B.take (DEGREE - 1) ++ B[DEGREE - 1] :: B.drop DEGREE) := hB ▸ hs
  unfold SSorted at hs2
  rw [List.pairwise_append] at hs2
  obtain ⟨hleft, hcons, hcross⟩ := hs2
  rw [List.pairwise_cons] at hcons
  refine ⟨hg ▸ hB, hleft, hcons.2, ?_, ?_⟩
  · intro e he
    rw [hg]
    exact hcross e he B[DEGREE - 1] (List.mem_cons_self _ _)
  · intro e he
    rw [hg]
    exact hcons.1 e he

theorem put_leaf (a : List SKey) (cs : List Page) (k : Key) (v : Value) :
    BTree.put (Page.mk true a cs) k v = some (Page.mk true (addKeys a k v) cs) := by
  simp [BTree.put, Page.is_external, Page.bottom, Page.add_key_value, Page.keys,
    Page.children]

theorem put_internal_hit {ks : List SKey} (cs : List Page) {k : Key} (v : Value)
    (hk : ∃ e ∈ ks, e.key = k) :
    BTree.put (Page.mk false ks cs) k v = some (Page.mk false (addKeys ks k v) cs) := by
  rcases hk with ⟨e, he, hek⟩
  have : ks.any (fun e => e.key == k) = true := by
    rw [List.any_eq_true]
    exact ⟨e, he, by simp [hek]⟩
  simp [BTree.put, Page.is_external, Page.bottom, Page.add_key_value, Page.keys,
    Page.children, this]

theorem put_internal_miss {ks : List SKey} (cs : List Page) {k : Key} (v : Value)
    (hk : ∀ e ∈ ks, e.key ≠ k) :
    BTree.put (Page.mk false ks cs) k v = none := by
  have : ks.any (fun e => e.key == k) = false := by
    rw [List.any_eq_false]
    intro e he
    simp [hk e he]
  simp [BTree.put, Page.is_external, Page.bottom, Page.keys, this]

theorem add_pres {t : BTree} (hinv : invB t = true) {k : Key} {v : Value} {t1 : BTree}
    (h : t.add_key_value k v = some t1) :
    invB t1 = true ∧ contents t1.root = modelInsert (contents t.root) k v := by
  obtain ⟨root⟩ := t
  have hinv2 : leafShB root = true ∨ twoShB root = true := by
    simpa [invB] using hinv
  rcases hinv2 with hl | h2
  · -- leaf root: add at the root, split iff full afterwards
    obtain ⟨b, a, cs⟩ := root
    obtain ⟨hb, hc, hs⟩ := leafShB_iff.mp hl
    simp only [Page.bottom] at hb
    simp only [Page.children] at hc
    simp only [Page.keys] at hs
    subst hb; subst hc
    have hBval : addKeys a k v = modelInsert a k v := addKeys_eq_modelInsert hs k v
    have hsB : SSorted (addKeys a k v) := by
      rw [hBval]; exact ssorted_modelInsert hs k v
    rw [BTree.add_key_value] at h
    simp only [put_leaf] at h
    by_cases hfull : (addKeys a k v).length = DEGREE * 2 - 1
    · have hisfull : (Page.mk true (addKeys a k v) []).is_full = true := by
        simp [Page.is_full, Page.keys, hfull]
      rw [if_pos hisfull] at h
      simp only [Page.split, Page.keys, Page.children, Page.bottom, List.take_nil,
        List.drop_nil, Option.some_inj] at h
      subst h
      have h15 : DEGREE - 1 < (addKeys a k v).length := by
        rw [hfull]; decide
      obtain ⟨hdec, hstake, hsdrop, hsepl, hsepr⟩ := sorted_split_decomp hsB h15
      constructor
      · have h2sh : twoShB (Page.mk false [(addKeys a k v).getD (DEGREE - 1) default]
            [Page.mk true ((addKeys a k v).take (DEGREE - 1)) [],
             Page.mk true ((addKeys a k v).drop DEGREE) []]) = true :=
          twoShB_mk hstake hsdrop hsepl hsepr
        simp only [invB, Bool.or_eq_true]
        exact Or.inr h2sh
      · rw [contents_two]
        simp only [Page.keys, contents_leaf]
        rw [← hBval]
        conv_rhs => rw [hdec]
        simp
    · have hisfull : (Page.mk true (addKeys a k v) []).is_full = false := by
        simp [Page.is_full, Page.keys, hfull]
      rw [hisfull] at h
      simp only [Bool.false_eq_true, if_false, Option.some_inj] at h
      subst h
      refine ⟨by simp [invB, leafShB_mk hsB], ?_⟩
      rw [contents_leaf, contents_leaf, hBval]
  · -- two-level root: only a repeat of the separator key is accepted
    obtain ⟨m, L, R, heq, hL, hR, hsepL, hsepR⟩ := twoShB_elim h2
    subst heq
    by_cases hk : k = m.key
    · subst hk
      have haddm : addKeys [m] m.key v = [⟨m.key, m.value ++ [v]⟩] := by
        rw [addKeys_eq_modelInsert (by simp [SSorted]) m.key v]
        simp [modelInsert]
      rw [BTree.add_key_value] at h
      simp only [put_internal_hit _ v ⟨m, List.mem_cons_self m [], rfl⟩, haddm] at h
      have hisfull : (Page.mk false [⟨m.key, m.value ++ [v]⟩]
          [Page.mk true L [], Page.mk true R []]).is_full = false := by
        simp [Page.is_full, Page.keys, DEGREE]
      rw [hisfull] at h
      simp only [Bool.false_eq_true, if_false, Option.some_inj] at h
      subst h
      constructor
      · have h2sh : twoShB (Page.mk false [⟨m.key, m.value ++ [v]⟩]
            [Page.mk true L [], Page.mk true R []]) = true :=
          twoShB_mk hL hR hsepL hsepR
        simp only [invB, Bool.or_eq_true]
        exact Or.inr h2sh
      · rw [contents_two, contents_two]
        simp only [Page.keys]
        have hrw : L ++ [m] ++ R = L ++ m :: R := by simp
        rw [hrw, modelInsert_append_mid v hsepL rfl]
        simp
    · rw [BTree.add_key_value] at h
      rw [put_internal_miss _ v ?absent] at h
      case absent =>
        intro e he
        rcases List.mem_cons.mp he with rfl | hin
        · exact fun hek => hk hek.symm
        · cases hin
      cases h

theorem merge_two (m : SKey) (l r : Page) :
    Page.merge (Page.mk false [m] [l, r]) 0 l r =
      some (Page.mk false [] [mergedNode m l r], mergedNode m l r) := by
  simp [Page.merge, Page.keys, Page.children, Page.bottom, mergedNode,
    List.eraseIdx_cons_succ, List.eraseIdx_cons_zero]

theorem remove_leaf (fuel : Nat) (a : List SKey) (cs : List Page) (k : Key) :
    Page.remove (fuel + 1) (Page.mk true a cs) k =
      some (Page.mk true (removeKeysLeaf a k) cs,
            Page.mk true (removeKeysLeaf a k) cs) := by
  simp [Page.remove, Page.is_external, Page.bottom, Page.keys, Page.children]

theorem remove_two_pred (g : Nat) {m : SKey} {L : List SKey} (R : List SKey) {k : Key}
    (hk : m.key = k) (hlen : DEGREE ≤ L.length) (hL : L ≠ []) :
    Page.remove (g + 2) (Page.mk false [m] [Page.mk true L [], Page.mk true R []]) k =
      some
        (Page.mk false [L.getLast hL]
          [Page.mk true (removeKeysLeaf L (L.getLast hL).key) [], Page.mk true R []],
         Page.mk false [L.getLast hL]
          [Page.mk true (removeKeysLeaf L (L.getLast hL).key) [], Page.mk true R []]) := by
  subst hk
  simp [Page.remove, Page.find_predecessor, Page.keys, Page.children, Page.bottom,
    Page.is_external, bisect_single, hlen, List.getLast?_eq_getLast _ hL]

theorem remove_two_succ (g : Nat) {m : SKey} (L : List SKey) {R : List SKey} {k : Key}
    (hk : m.key = k) (hlenl : L.length < DEGREE) (hlenr : DEGREE ≤ R.length)
    (hR : R ≠ []) :
    Page.remove (g + 2) (Page.mk false [m] [Page.mk true L [], Page.mk true R []]) k =
      some
        (Page.mk false [R.head hR]
          [Page.mk true L [], Page.mk true (removeKeysLeaf R (R.head hR).key) []],
         Page.mk false [R.head hR]
          [Page.mk true L [], Page.mk true (removeKeysLeaf R (R.head hR).key) []]) := by
  subst hk
  simp [Page.remove, Page.find_successor, Page.keys, Page.children, Page.bottom,
    Page.is_external, bisect_single, not_le.mpr hlenl, hlenr, List.head?_eq_head hR]

theorem remove_two_merge_sep (g : Nat) {m : SKey} {L R : List SKey} {k : Key}
    (hk : m.key = k) (hlenl : L.length < DEGREE) (hlenr : R.length < DEGREE) :
    Page.remove (g + 2) (Page.mk false [m] [Page.mk true L [], Page.mk true R []]) k =
      some
        (Page.mk false [] [Page.mk true (removeKeysLeaf (L ++ [m] ++ R) k) []],
         Page.mk true (removeKeysLeaf (L ++ [m] ++ R) k) []) := by
  subst hk
  simp [Page.remove, Page.merge, Page.keys, Page.children, Page.bottom,
    Page.is_external, bisect_single, not_le.mpr hlenl, not_le.mpr hlenr]

theorem remove_two_descend_left (g : Nat) {m : SKey} {L : List SKey} (R : List SKey)
    {k : Key} (hh : k < m.key) (hlen : L.length ≠ DEGREE - 1) :
    Page.remove (g + 2) (Page.mk false [m] [Page.mk true L [], Page.mk true R []]) k =
      some
        (Page.mk false [m] [Page.mk true (removeKeysLeaf L k) [], Page.mk true R []],
         Page.mk false [m] [Page.mk true (removeKeysLeaf L k) [], Page.mk true R []]) := by
  simp [Page.remove, Page.keys, Page.children, Page.bottom, Page.is_external,
    bisect_single, not_le.mpr hh, ne_of_gt hh, not_lt.mpr (le_of_lt hh), hlen]

theorem remove_two_descend_right (g : Nat) {m : SKey} (L : List SKey) {R : List SKey}
    {k : Key} (hh : m.key < k) (hlen : R.length ≠ DEGREE - 1) :
    Page.remove (g + 2) (Page.mk false [m] [Page.mk true L [], Page.mk true R []]) k =
      some
        (Page.mk false [m] [Page.mk true L [], Page.mk true (removeKeysLeaf R k) []],
         Page.mk false [m] [Page.mk true L [], Page.mk true (removeKeysLeaf R k) []]) := by
  simp [Page.remove, Page.keys, Page.children, Page.bottom, Page.is_external,
    bisect_single, le_of_lt hh, ne_of_lt hh, hh, hlen]

theorem remove_two_borrowR (g : Nat) {m : SKey} {L R : List SKey} {k : Key}
    (hh : k < m.key) (hlenl : L.length = DEGREE - 1) (hlenr : DEGREE - 1 < R.length)
    (hR : R ≠ []) (hmh : m.key < (R.head hR).key) :
    Page.remove (g + 3) (Page.mk false [m] [Page.mk true L [], Page.mk true R []]) k =
      some
        (Page.mk false [R.head hR]
          [Page.mk true (removeKeysLeaf (L ++ [m]) k) [], Page.mk true R.tail []],
         Page.mk false [R.head hR]
          [Page.mk true (removeKeysLeaf (L ++ [m]) k) [], Page.mk true R.tail []]) := by
  have hkh : k < (R.head hR).key := lt_trans hh hmh
  have hlen2 : (L ++ [m]).length ≠ DEGREE - 1 := by
    simp [hlenl, DEGREE]
  simp [Page.remove, Page.borrow_from_right, Page.keys, Page.children, Page.bottom,
    Page.is_external, bisect_single, not_le.mpr hh, ne_of_gt hh,
    not_lt.mpr (le_of_lt hh), hlenl, hlenr, List.head?_eq_head hR,
    not_le.mpr hkh, ne_of_gt hkh, not_lt.mpr (le_of_lt hkh), hlen2]

theorem remove_two_borrowL (g : Nat) {m : SKey} {L R : List SKey} {k : Key}
    (hh : m.key < k) (hlenr : R.length = DEGREE - 1) (hlenl : DEGREE - 1 < L.length)
    (hL : L ≠ []) (hml : (L.getLast hL).key < m.key) :
    Page.remove (g + 3) (Page.mk false [m] [Page.mk true L [], Page.mk true R []]) k =
      some
        (Page.mk false [L.getLast hL]
          [Page.mk true L.dropLast [], Page.mk true (removeKeysLeaf (m :: R) k) []],
         Page.mk false [L.getLast hL]
          [Page.mk true L.dropLast [], Page.mk true (removeKeysLeaf (m :: R) k) []]) := by
  have hlk : (L.getLast hL).key < k := lt_trans hml hh
  have hlen2 : (m :: R).length ≠ DEGREE - 1 := by
    simp [hlenr, DEGREE]
  simp [Page.remove, Page.borrow_from_left, Page.keys, Page.children, Page.bottom,
    Page.is_external, bisect_single, le_of_lt hh, ne_of_lt hh, hh, hlenr, hlenl,
    List.getLast?_eq_getLast _ hL, le_of_lt hlk, ne_of_lt hlk, hlk, hlen2]

theorem remove_two_merge_absent_left (g : Nat) {m : SKey} {L R : List SKey} {k : Key}
    (hh : k < m.key) (hlenl : L.length = DEGREE - 1) (hlenr : ¬(DEGREE - 1 < R.length)) :
    Page.remove (g + 2) (Page.mk false [m] [Page.mk true L [], Page.mk true R []]) k =
      some
        (Page.mk false [] [Page.mk true (removeKeysLeaf (L ++ [m] ++ R) k) []],
         Page.mk true (removeKeysLeaf (L ++ [m] ++ R) k) []) := by
  simp [Page.remove, Page.merge, Page.keys, Page.children, Page.bottom,
    Page.is_external, bisect_single, not_le.mpr hh, ne_of_gt hh,
    not_lt.mpr (le_of_lt hh), hlenl, hlenr]

theorem remove_two_merge_absent_right (g : Nat) {m : SKey} {L R : List SKey} {k : Key}
    (hh : m.key < k) (hlenr : R.length = DEGREE - 1) (hlenl : ¬(DEGREE - 1 < L.length)) :
    Page.remove (g + 2) (Page.mk false [m] [Page.mk true L [], Page.mk true R []]) k =
      some
        (Page.mk false [] [Page.mk true (removeKeysLeaf (L ++ [m] ++ R) k) []],
         Page.mk true (removeKeysLeaf (L ++ [m] ++ R) k) []) := by
  simp [Page.remove, Page.merge, Page.keys, Page.children, Page.bottom,
    Page.is_external, bisect_single, le_of_lt hh, ne_of_lt hh, hh, hlenr, hlenl]

theorem ssorted_dropLast {L : List SKey} (hs : SSorted L) : SSorted L.dropLast :=
  List.Pairwise.sublist (List.dropLast_sublist L) hs

theorem sorted_getLast?_facts {L : List SKey} (hs : SSorted L) {g : SKey}
    (h : L.getLast? = some g) :
    modelErase L g.key = L.dropLast ∧ ∀ e ∈ L.dropLast, e.key < g.key := by
  obtain ⟨ys, rfl⟩ := List.getLast?_eq_some_iff.mp h
  have hs2 : List.Pairwise (fun a b => a.key < b.key) (ys ++ [g]) := hs
  rw [List.pairwise_append] at hs2
  have hlt : ∀ e ∈ ys, e.key < g.key :=
    fun e he => hs2.2.2 e he g (List.mem_cons_self _ _)
  constructor
  · rw [modelErase_append_absent_left (fun e he => ne_of_lt (hlt e he))]
    simp [modelErase, List.dropLast_concat]
  · rw [List.dropLast_concat]
    exact hlt

theorem ssorted_append_single {L : List SKey} {m : SKey} (hs : SSorted L)
    (hsep : ∀ e ∈ L, e.key < m.key) : SSorted (L ++ [m]) := by
  unfold SSorted
  rw [List.pairwise_append]
  refine ⟨hs, by simp [List.pairwise_cons], ?_⟩
  intro a ha b hb
  rcases List.mem_cons.mp hb with rfl | hb1
  · exact hsep a ha
  · cases hb1

theorem mem_modelErase_subset {a : List SKey} {k : Key} {e : SKey}
    (h : e ∈ modelErase a k) : e ∈ a :=
  (modelErase_sublist a k).subset h

theorem merged_leaf_facts {m : SKey} {L R : List SKey} (k : Key) (hL : SSorted L)
    (hR : SSorted R) (hsepL : ∀ e ∈ L, e.key < m.key)
    (hsepR : ∀ e ∈ R, m.key < e.key) :
    leafShB (Page.mk true (removeKeysLeaf (L ++ [m] ++ R) k) []) = true ∧
    contents (Page.mk true (removeKeysLeaf (L ++ [m] ++ R) k) []) =
      modelErase (L ++ m :: R) k := by
  have hrw : L ++ [m] ++ R = L ++ m :: R := by simp
  have hsM : SSorted (L ++ m :: R) := ssorted_contents_two hL hR hsepL hsepR
  rw [hrw] at *
  constructor
  · apply leafShB_mk
    rw [removeKeysLeaf_eq_modelErase hsM]
    exact ssorted_modelErase hsM k
  · rw [contents_leaf, removeKeysLeaf_eq_modelErase hsM]

theorem remove_master {p : Page} (hsh : leafShB p = true ∨ twoShB p = true)
    (k : Key) (fuel : Nat) :
    ∃ s ret, Page.remove (fuel + 3) p k = some (s, ret) ∧
      (leafShB ret = true ∨ twoShB ret = true) ∧
      contents ret = modelErase (contents p) k := by
  rcases hsh with hl | h2
  · -- leaf root: plain erase in the root
    obtain ⟨b, a, cs⟩ := p
    obtain ⟨hb, hc, hs⟩ := leafShB_iff.mp hl
    simp only [Page.bottom] at hb
    simp only [Page.children] at hc
    simp only [Page.keys] at hs
    subst hb; subst hc
    refine ⟨_, _, remove_leaf (fuel + 2) a [] k, Or.inl ?_, ?_⟩
    · apply leafShB_mk
      rw [removeKeysLeaf_eq_modelErase hs]
      exact ssorted_modelErase hs k
    · rw [contents_leaf, contents_leaf, removeKeysLeaf_eq_modelErase hs]
  · obtain ⟨m, L, R, rfl, hL, hR, hsepL, hsepR⟩ := twoShB_elim h2
    have hcont : contents (Page.mk false [m] [Page.mk true L [], Page.mk true R []]) =
        L ++ m :: R := by
      rw [contents_two]
      simp [Page.keys]
    rw [hcont]
    rcases lt_trichotomy k m.key with hkm | hkm | hkm
    · -- k strictly left of the separator
      have habsR : ∀ e ∈ m :: R, e.key ≠ k := by
        intro e he
        rcases List.mem_cons.mp he with rfl | heR
        · exact ne_of_gt hkm
        · exact ne_of_gt (lt_trans hkm (hsepR e heR))
      by_cases hsz : L.length = DEGREE - 1
      · by_cases hbr : DEGREE - 1 < R.length
        · -- repair by borrowing from the right sibling, then descend
          have hRne : R ≠ [] :=
            List.ne_nil_of_length_pos (lt_of_le_of_lt (Nat.zero_le _) hbr)
          have hmh : m.key < (R.head hRne).key := hsepR _ (List.head_mem hRne)
          have hsLM : SSorted (L ++ [m]) := ssorted_append_single hL hsepL
          have hE : removeKeysLeaf (L ++ [m]) k = modelErase (L ++ [m]) k :=
            removeKeysLeaf_eq_modelErase hsLM k
          refine ⟨_, _, remove_two_borrowR fuel hkm hsz hbr hRne hmh, Or.inr ?_, ?_⟩
          · have hsE : SSorted (removeKeysLeaf (L ++ [m]) k) := by
              rw [hE]; exact ssorted_modelErase hsLM k
            have hsepE : ∀ e ∈ removeKeysLeaf (L ++ [m]) k, e.key < (R.head hRne).key := by
              intro e he
              rw [hE] at he
              rcases List.mem_append.mp (mem_modelErase_subset he) with h1 | h1
              · exact lt_trans (hsepL e h1) hmh
              · rw [List.mem_singleton.mp h1]
                exact hmh
            have hsT : SSorted R.tail := List.Pairwise.sublist (List.tail_sublist R) hR
            have hsepT : ∀ e ∈ R.tail, (R.head hRne).key < e.key := by
              have hp : List.Pairwise (fun a b => a.key < b.key) (R.head hRne :: R.tail) := by
                rw [List.head_cons_tail]
                exact hR
              exact (List.pairwise_cons.mp hp).1
            exact twoShB_mk hsE hsT hsepE hsepT
          · rw [contents_two]
            simp only [Page.keys]
            have h1 : L ++ m :: R = (L ++ [m]) ++ R := by simp
            rw [h1, modelErase_append_absent_right
              (fun e he => ne_of_gt (lt_trans hkm (hsepR e he))), hE,
              List.append_assoc, List.singleton_append, List.head_cons_tail]
        · -- both children at minimum: merge, delete in the merged leaf, collapse
          obtain ⟨hsh1, hc1⟩ := merged_leaf_facts k hL hR hsepL hsepR
          exact ⟨_, _, remove_two_merge_absent_left (fuel + 1) hkm hsz hbr,
            Or.inl hsh1, hc1⟩
      · -- left child can absorb the deletion directly
        have hE : removeKeysLeaf L k = modelErase L k := removeKeysLeaf_eq_modelErase hL k
        refine ⟨_, _, remove_two_descend_left (fuel + 1) R hkm hsz, Or.inr ?_, ?_⟩
        · have hsE : SSorted (removeKeysLeaf L k) := by
            rw [hE]; exact ssorted_modelErase hL k
          have hsepE : ∀ e ∈ removeKeysLeaf L k, e.key < m.key := by
            intro e he
            rw [hE] at he
            exact hsepL e (mem_modelErase_subset he)
          exact twoShB_mk hsE hR hsepE hsepR
        · rw [contents_two]
          simp only [Page.keys]
          rw [modelErase_append_absent_right habsR, hE]
          simp
    · -- k is the separator key itself
      by_cases h16 : DEGREE ≤ L.length
      · -- replace the separator by the predecessor and delete it from the left child
        have hLne : L ≠ [] := by
          intro h0
          rw [h0] at h16
          simp [DEGREE] at h16
        have hglast : L.getLast? = some (L.getLast hLne) := List.getLast?_eq_getLast L hLne
        obtain ⟨herase, hlt⟩ := sorted_getLast?_facts hL hglast
        have hmem : L.getLast hLne ∈ L := List.getLast_mem hLne
        have hE : removeKeysLeaf L (L.getLast hLne).key = L.dropLast := by
          rw [removeKeysLeaf_eq_modelErase hL, herase]
        refine ⟨_, _, remove_two_pred (fuel + 1) R hkm.symm h16 hLne, Or.inr ?_, ?_⟩
        · rw [hE]
          exact twoShB_mk (ssorted_dropLast hL) hR hlt
            (fun e he => lt_trans (hsepL _ hmem) (hsepR e he))
        · rw [contents_two]
          simp only [Page.keys]
          rw [hE, modelErase_append_absent_left
            (fun e he => hkm ▸ ne_of_lt (hsepL e he))]
          have : modelErase (m :: R) k = R := by
            simp [modelErase, hkm.symm]
          rw [this, List.dropLast_append_getLast hLne]
      · by_cases h16R : DEGREE ≤ R.length
        · -- replace the separator by the successor and delete it from the right child
          have hRne : R ≠ [] := by
            intro h0
            rw [h0] at h16R
            simp [DEGREE] at h16R
          obtain ⟨rk, R1, rfl⟩ := List.exists_cons_of_ne_nil hRne
          have hhead : (rk :: R1).head hRne = rk := rfl
          have hE : removeKeysLeaf (rk :: R1) rk.key = R1 := by
            rw [removeKeysLeaf_eq_modelErase hR]
            simp [modelErase]
          have heq := remove_two_succ (fuel + 1) L hkm.symm (not_le.mp h16) h16R hRne
          rw [hhead] at heq
          refine ⟨_, _, heq, Or.inr ?_, ?_⟩
          · rw [hE]
            have hsT : SSorted R1 := (ssorted_cons_iff.mp hR).2
            have hsepT : ∀ e ∈ R1, rk.key < e.key := (ssorted_cons_iff.mp hR).1
            exact twoShB_mk hL hsT
              (fun e he => lt_trans (hsepL e he) (hsepR rk (List.mem_cons_self _ _)))
              hsepT
          · rw [contents_two]
            simp only [Page.keys]
            rw [hE, modelErase_append_absent_left
              (fun e he => hkm ▸ ne_of_lt (hsepL e he))]
            have : modelErase (m :: rk :: R1) k = rk :: R1 := by
              simp [modelErase, hkm.symm]
            rw [this, List.append_assoc, List.singleton_append]
        · -- both children at minimum: merge around the separator and delete inside
          obtain ⟨hsh1, hc1⟩ := merged_leaf_facts k hL hR hsepL hsepR
          exact ⟨_, _, remove_two_merge_sep (fuel + 1) hkm.symm (not_le.mp h16)
            (not_le.mp h16R), Or.inl hsh1, hc1⟩
    · -- k strictly right of the separator
      have habsL : ∀ e ∈ L, e.key ≠ k := by
        intro e he
        exact ne_of_lt (lt_trans (hsepL e he) hkm)
      by_cases hsz : R.length = DEGREE - 1
      · by_cases hbl : DEGREE - 1 < L.length
        · -- repair by borrowing from the left sibling, then descend
          have hLne : L ≠ [] :=
            List.ne_nil_of_length_pos (lt_of_le_of_lt (Nat.zero_le _) hbl)
          have hglast : L.getLast? = some (L.getLast hLne) := List.getLast?_eq_getLast L hLne
          obtain ⟨herase, hlt⟩ := sorted_getLast?_facts hL hglast
          have hml : (L.getLast hLne).key < m.key := hsepL _ (List.getLast_mem hLne)
          have hsMR : SSorted (m :: R) := ssorted_cons_iff.mpr ⟨hsepR, hR⟩
          have hE : removeKeysLeaf (m :: R) k = modelErase (m :: R) k :=
            removeKeysLeaf_eq_modelErase hsMR k
          refine ⟨_, _, remove_two_borrowL fuel hkm hsz hbl hLne hml, Or.inr ?_, ?_⟩
          · have hsE : SSorted (removeKeysLeaf (m :: R) k) := by
              rw [hE]; exact ssorted_modelErase hsMR k
            have hsepE : ∀ e ∈ removeKeysLeaf (m :: R) k, (L.getLast hLne).key < e.key := by
              intro e he
              rw [hE] at he
              rcases List.mem_cons.mp (mem_modelErase_subset he) with rfl | heR
              · exact hml
              · exact lt_trans hml (hsepR e heR)
            exact twoShB_mk (ssorted_dropLast hL) hsE hlt hsepE
          · rw [contents_two]
            simp only [Page.keys]
            rw [hE, modelErase_append_absent_left habsL,
              List.dropLast_append_getLast hLne]
        · -- both children at minimum: merge and delete inside
          obtain ⟨hsh1, hc1⟩ := merged_leaf_facts k hL hR hsepL hsepR
          exact ⟨_, _, remove_two_merge_absent_right (fuel + 1) hkm hsz hbl,
            Or.inl hsh1, hc1⟩
      · -- right child can absorb the deletion directly
        have hE : removeKeysLeaf R k = modelErase R k := removeKeysLeaf_eq_modelErase hR k
        refine ⟨_, _, remove_two_descend_right (fuel + 1) L hkm hsz, Or.inr ?_, ?_⟩
        · have hsE : SSorted (removeKeysLeaf R k) := by
            rw [hE]; exact ssorted_modelErase hR k
          have hsepE : ∀ e ∈ removeKeysLeaf R k, m.key < e.key := by
            intro e he
            rw [hE] at he
            exact hsepR e (mem_modelErase_subset he)
          exact twoShB_mk hL hsE hsepL hsepE
        · rw [contents_two]
          simp only [Page.keys]
          have h1 : L ++ m :: R = (L ++ [m]) ++ R := by simp
          have habsLM : ∀ e ∈ L ++ [m], e.key ≠ k := by
            intro e he
            rcases List.mem_append.mp he with h1m | h1m
            · exact habsL e h1m
            · rw [List.mem_singleton.mp h1m]
              exact ne_of_lt hkm
          rw [h1, modelErase_append_absent_left habsLM, hE]

theorem del_pres {t : BTree} (hinv : invB t = true) {k : Key} {t1 : BTree}
    (h : BTree.remove REMOVE_FUEL t k = some t1) :
    invB t1 = true ∧ contents t1.root = modelErase (contents t.root) k := by
  have hsh : leafShB t.root = true ∨ twoShB t.root = true := by
    simpa [invB] using hinv
  obtain ⟨s, ret, heq, hsh2, hc⟩ := remove_master hsh k 6
  rw [BTree.remove, show REMOVE_FUEL = 6 + 3 from rfl, heq] at h
  simp only [Option.map_some', Option.some_inj] at h
  subst h
  refine ⟨?_, hc⟩
  simp only [invB, Bool.or_eq_true]
  exact hsh2

theorem reach_inv {t : BTree} (h : Reachable t) : invB t = true := by
  induction h with
  | base => decide
  | add _ hstep ih => exact (add_pres ih hstep).1
  | del _ hstep ih => exact (del_pres ih hstep).1

theorem runOps_pres : ∀ (ops : List Op) {t t1 : BTree}, invB t = true →
    runOps t ops = some t1 →
    invB t1 = true ∧ contents t1.root = applyOps ops (contents t.root) := by
  intro ops
  induction ops with
  | nil =>
    intro t t1 hinv h
    simp only [runOps, Option.some_inj] at h
    subst h
    exact ⟨hinv, rfl⟩
  | cons op rest ih =>
    intro t t1 hinv h
    cases op with
    | ins k v =>
      rw [runOps] at h
      cases haa : t.add_key_value k v with
      | none => rw [haa] at h; cases h
      | some t2 =>
        rw [haa] at h
        obtain ⟨h1, h2⟩ := add_pres hinv haa
        obtain ⟨h3, h4⟩ := ih h1 h
        rw [applyOps, ← h2]
        exact ⟨h3, h4⟩
    | del k =>
      rw [runOps] at h
      cases haa : BTree.remove REMOVE_FUEL t k with
      | none => rw [haa] at h; cases h
      | some t2 =>
        rw [haa] at h
        obtain ⟨h1, h2⟩ := del_pres hinv haa
        obtain ⟨h3, h4⟩ := ih h1 h
        rw [applyOps, ← h2]
        exact ⟨h3, h4⟩

theorem applyOps_lookup (k : Key) : ∀ (ops : List Op) (A : List SKey), SSorted A →
    (∀ op ∈ ops, op ≠ Op.del k) →
    modelLookup (applyOps ops A) k = combineVals (modelLookup A k) (insVals ops k) := by
  intro ops
  induction ops with
  | nil =>
    intro A hs hdel
    simp only [applyOps, insVals, List.filterMap_nil]
    cases h : modelLookup A k <;> simp [combineVals, h]
  | cons op rest ih =>
    intro A hs hdel
    have hdel2 : ∀ op ∈ rest, op ≠ Op.del k :=
      fun o ho => hdel o (List.mem_cons_of_mem op ho)
    cases op with
    | ins k1 v =>
      rw [applyOps, ih (modelInsert A k1 v) (ssorted_modelInsert hs k1 v) hdel2]
      by_cases hk1 : k1 = k
      · subst hk1
        rw [modelLookup_insert_self hs]
        have hiv : insVals (Op.ins k1 v :: rest) k1 = v :: insVals rest k1 := by
          simp [insVals]
        rw [hiv]
        cases h : modelLookup A k1 <;>
          simp [combineVals, h]
      · rw [modelLookup_insert_ne A hk1]
        have hiv : insVals (Op.ins k1 v :: rest) k = insVals rest k := by
          simp [insVals, hk1]
        rw [hiv]
    | del k1 =>
      have hne : k1 ≠ k := by
        intro hk1
        exact hdel (Op.del k1) (List.mem_cons_self _ _) (by rw [hk1])
      rw [applyOps, ih (modelErase A k1) (ssorted_modelErase hs k1) hdel2,
        modelLookup_erase_ne A hne]
      have hiv : insVals (Op.del k1 :: rest) k = insVals rest k := by
        simp [insVals]
      rw [hiv]

/-- C1 theorem: 31 ascending inserts into the empty tree succeed (they
all land in the leaf root, which splits at the 31st), but the 32nd
insert descends from the now-internal root into a child and raises:
btree.py line 263 calls `nxt.close()` on a `Page`, and `Page` defines no
`close` method, so Python raises AttributeError.  The spec says insert
never fails, so this is a bug in the code. -/
theorem insert_descend_close_bug :
    (runAdds BTree.new (asc 31)).isSome = true ∧
    (runAdds BTree.new (asc 32)).isNone = true := by
  constructor <;> decide

/-- C4 counterexample: on a concrete full page the newly allocated right
sibling receives 15 = DEGREE - 1 entries (`keys[DEGREE:]` of a
`2*DEGREE - 1`-entry page), not "the last DEGREE entries" as the claim
states. -/
theorem split_not_last_degree :
    fullLeaf31.split.2.2.keys.length ≠ DEGREE ∧
    fullLeaf31.split.2.2.keys ≠ fullLeaf31.keys.drop (DEGREE - 1) := by
  constructor <;> decide

/-- C9 theorem: on a freshly created tree (the root is an empty leaf),
every lookup returns absence without failing, and every removal
completes as a no-op, leaving the root the same empty leaf. -/
theorem fresh_tree_find_remove (k : Key) (fuel : Nat) :
    BTree.find_key (fuel + 1) BTree.new k = some none ∧
    BTree.remove (fuel + 1) BTree.new k = some BTree.new := by
  constructor
  · simp [BTree.find_key, Page.find, BTree.new, Page.keys, Page.children, bisect_nil]
  · simp [BTree.remove, Page.remove, BTree.new, Page.is_external, Page.bottom,
      Page.keys, Page.children, removeKeysLeaf, bisect_nil]

/-- C4 theorem (amended): `split` on a full page (2*DEGREE - 1 entries)
promotes the median entry `keys[DEGREE - 1]`, keeps the first DEGREE - 1
entries in place, moves the last DEGREE - 1 entries to a newly allocated
sibling of the same leaf/internal kind, and (if internal) leaves the
first DEGREE children on the left node, giving the remaining children to
the new right node; the three parts reassemble to the original entries. -/
theorem split_spec (p : Page) (h : p.keys.length = 2 * DEGREE - 1) :
    p.keys[DEGREE - 1]? = some p.split.1 ∧
    p.split.2.1.bottom = p.bottom ∧ p.split.2.2.bottom = p.bottom ∧
    p.split.2.1.keys = p.keys.take (DEGREE - 1) ∧
    p.split.2.2.keys = p.keys.drop DEGREE ∧
    p.split.2.1.keys.length = DEGREE - 1 ∧
    p.split.2.2.keys.length = DEGREE - 1 ∧
    p.split.2.1.children = p.children.take DEGREE ∧
    p.split.2.2.children = p.children.drop DEGREE ∧
    p.split.2.1.keys ++ [p.split.1] ++ p.split.2.2.keys = p.keys := by
  have h15 : DEGREE - 1 < p.keys.length := by
    rw [h]; decide
  have hg : p.keys.getD (DEGREE - 1) default = p.keys[DEGREE - 1] := by
    rw [List.getD_eq_getElem?_getD, List.getElem?_eq_getElem h15, Option.getD_some]
  refine ⟨?_, rfl, rfl, rfl, rfl, ?_, ?_, rfl, rfl, ?_⟩
  · show p.keys[DEGREE - 1]? = some (p.keys.getD (DEGREE - 1) default)
    rw [List.getElem?_eq_getElem h15, hg]
  · show (p.keys.take (DEGREE - 1)).length = DEGREE - 1
    rw [List.length_take]
    omega
  · show (p.keys.drop DEGREE).length = DEGREE - 1
    rw [List.length_drop, h]
    decide
  · show p.keys.take (DEGREE - 1) ++ [p.keys.getD (DEGREE - 1) default] ++
      p.keys.drop DEGREE = p.keys
    rw [hg]
    have hdec : List.drop (DEGREE - 1) p.keys = p.keys[DEGREE - 1] :: p.keys.drop DEGREE := by
      have h2 := List.drop_eq_getElem_cons h15
      rw [show DEGREE - 1 + 1 = DEGREE from rfl] at h2
      exact h2
    conv_rhs => rw [← List.take_append_drop (DEGREE - 1) p.keys, hdec]
    rw [List.append_assoc, List.singleton_append]

theorem split_spec_witness :
    fullLeaf31.keys[DEGREE - 1]? = some fullLeaf31.split.1 ∧
    fullLeaf31.split.2.1.bottom = fullLeaf31.bottom ∧
    fullLeaf31.split.2.2.bottom = fullLeaf31.bottom ∧
    fullLeaf31.split.2.1.keys = fullLeaf31.keys.take (DEGREE - 1) ∧
    fullLeaf31.split.2.2.keys = fullLeaf31.keys.drop DEGREE ∧
    fullLeaf31.split.2.1.keys.length = DEGREE - 1 ∧
    fullLeaf31.split.2.2.keys.length = DEGREE - 1 ∧
    fullLeaf31.split.2.1.children = fullLeaf31.children.take DEGREE ∧
    fullLeaf31.split.2.2.children = fullLeaf31.children.drop DEGREE ∧
    fullLeaf31.split.2.1.keys ++ [fullLeaf31.split.1] ++ fullLeaf31.split.2.2.keys =
      fullLeaf31.keys :=
  split_spec fullLeaf31 (by decide)

/-- C7 theorem: after `_put` returns to the tree level, the root is
split and wrapped in a brand-new internal root exactly when it is full;
and concretely, inserting ascending keys one at a time, the level-order
dump shows one level after each of the first 30 insertions and two
levels (an internal root) right after the 31st. -/
theorem root_split_wrap :
    (∀ (t : BTree) (k : Key) (v : Value) (r : Page), BTree.put t.root k v = some r →
      BTree.add_key_value t k v =
        some (if r.is_full then
                ⟨Page.mk false [r.split.1] [r.split.2.1, r.split.2.2]⟩
              else ⟨r⟩)) ∧
    ((List.range 31).all (fun n =>
      ((runAdds BTree.new (asc n)).map (fun t => (BTree.levels 40 t).length)) ==
        some 1) = true) ∧
    ((runAdds BTree.new (asc 31)).map (fun t => (BTree.levels 40 t).length)) = some 2 ∧
    ((runAdds BTree.new (asc 31)).map (fun t => t.root.bottom)) = some false := by
  refine ⟨?_, by decide, by decide, by decide⟩
  intro t k v r h
  rw [BTree.add_key_value, h]
  by_cases hf : r.is_full = true
  · simp [hf]
  · simp [hf]

theorem root_split_wrap_witness :
    BTree.add_key_value BTree.new 5 7 = some ⟨Page.mk true [⟨5, [7]⟩] []⟩ := by
  have h := root_split_wrap.1 BTree.new 5 7 (Page.mk true [⟨5, [7]⟩] []) rfl
  simpa using h

/-- C10 theorem: on a strictly sorted node, `add_key_value` keeps the
keys strictly sorted; an absent key is inserted as a fresh one-value
entry at the bisect position, and a present key has its value list
extended at the end in place. -/
theorem add_key_value_order {a : List SKey} (hs : SSorted a) (k : Key) (v : Value) :
    SSorted (addKeys a k v) ∧
    ((∀ e ∈ a, e.key ≠ k) →
      addKeys a k v = a.insertIdx (bisect_right a k) ⟨k, [v]⟩) ∧
    (∀ (j : Nat) (e : SKey), a[j]? = some e → e.key = k →
      addKeys a k v = a.set j ⟨e.key, e.value ++ [v]⟩) := by
  refine ⟨?_, ?_, ?_⟩
  · rw [addKeys_eq_modelInsert hs]
    exact ssorted_modelInsert hs k v
  · intro habs
    rw [addKeys_eq_modelInsert hs]
    exact modelInsert_absent hs habs v
  · intro j e hj hek
    rw [addKeys_eq_modelInsert hs]
    exact modelInsert_present hs hj hek v

theorem add_key_value_order_witness :
    SSorted (addKeys [⟨1, [10]⟩, ⟨5, [20]⟩] 5 7) ∧
    ((∀ e ∈ [(⟨1, [10]⟩ : SKey), ⟨5, [20]⟩], e.key ≠ 5) →
      addKeys [⟨1, [10]⟩, ⟨5, [20]⟩] 5 7 =
        List.insertIdx (bisect_right [⟨1, [10]⟩, ⟨5, [20]⟩] 5) ⟨5, [7]⟩
          [⟨1, [10]⟩, ⟨5, [20]⟩]) ∧
    (∀ (j : Nat) (e : SKey), [(⟨1, [10]⟩ : SKey), ⟨5, [20]⟩][j]? = some e → e.key = 5 →
      addKeys [⟨1, [10]⟩, ⟨5, [20]⟩] 5 7 =
        List.set [⟨1, [10]⟩, ⟨5, [20]⟩] j ⟨e.key, e.value ++ [7]⟩) :=
  add_key_value_order (by decide) 5 7

/-- C2 theorem: replay any sequence of operations that contains no
removal of `k` from the empty tree; if the replay completes, `find(k)`
returns exactly the values inserted for `k`, in insertion order, and
absence when there were none. -/
theorem multimap_semantics {ops : List Op} {t : BTree}
    (hrun : runOps BTree.new ops = some t) {k : Key}
    (hnodel : ∀ op ∈ ops, op ≠ Op.del k) (fuel : Nat) :
    BTree.find_key (fuel + 2) t k =
      some (if insVals ops k = [] then none else some (insVals ops k)) := by
  obtain ⟨hinv, hcont⟩ := runOps_pres ops (by decide) hrun
  have hc0 : contents BTree.new.root = [] := rfl
  rw [hc0] at hcont
  have hsh : leafShB t.root = true ∨ twoShB t.root = true := by
    simpa [invB] using hinv
  rw [BTree.find_key, find_char hsh fuel k, hcont,
    applyOps_lookup k ops [] (by simp [SSorted]) hnodel]
  cases hiv : insVals ops k with
  | nil => simp [combineVals, modelLookup]
  | cons v vs => simp [combineVals, modelLookup]

theorem multimap_semantics_witness :
    BTree.find_key 2
        (⟨Page.mk true [⟨1, [5, 6]⟩, ⟨2, [3]⟩, ⟨3, [2]⟩, ⟨5, [4]⟩, ⟨8, [1]⟩, ⟨13, [0]⟩] []⟩ : BTree)
        1 = some (some [5, 6]) ∧
    BTree.find_key 2
        (⟨Page.mk true [⟨1, [5, 6]⟩, ⟨2, [3]⟩, ⟨3, [2]⟩, ⟨5, [4]⟩, ⟨8, [1]⟩, ⟨13, [0]⟩] []⟩ : BTree)
        13 = some (some [0]) ∧
    BTree.find_key 2
        (⟨Page.mk true [⟨1, [5, 6]⟩, ⟨2, [3]⟩, ⟨3, [2]⟩, ⟨5, [4]⟩, ⟨8, [1]⟩, ⟨13, [0]⟩] []⟩ : BTree)
        100 = some none := by
  refine ⟨?_, ?_, ?_⟩
  · have h := @multimap_semantics scenOps
      ⟨Page.mk true [⟨1, [5, 6]⟩, ⟨2, [3]⟩, ⟨3, [2]⟩, ⟨5, [4]⟩, ⟨8, [1]⟩, ⟨13, [0]⟩] []⟩
      rfl 1 (by decide) 0
    simpa using h
  · have h := @multimap_semantics scenOps
      ⟨Page.mk true [⟨1, [5, 6]⟩, ⟨2, [3]⟩, ⟨3, [2]⟩, ⟨5, [4]⟩, ⟨8, [1]⟩, ⟨13, [0]⟩] []⟩
      rfl 13 (by decide) 0
    simpa using h
  · have h := @multimap_semantics scenOps
      ⟨Page.mk true [⟨1, [5, 6]⟩, ⟨2, [3]⟩, ⟨3, [2]⟩, ⟨5, [4]⟩, ⟨8, [1]⟩, ⟨13, [0]⟩] []⟩
      rfl 100 (by decide) 0
    simpa using h

/-- C3 theorem: on any API-reachable tree, removing a present key
succeeds and a subsequent find of that key reports absence. -/
theorem removal_completeness {t : BTree} (hreach : Reachable t) {k : Key}
    (_hmem : (contents t.root).any (fun e => e.key == k) = true) (fuel fuel2 : Nat) :
    (BTree.remove (fuel + 3) t k).bind
      (fun t1 => BTree.find_key (fuel2 + 2) t1 k) = some none := by
  have hinv := reach_inv hreach
  have hsh : leafShB t.root = true ∨ twoShB t.root = true := by
    simpa [invB] using hinv
  obtain ⟨s, ret, heq, hsh2, hc⟩ := remove_master hsh k fuel
  rw [BTree.remove, heq]
  simp only [Option.map_some', Option.some_bind]
  simp only [BTree.find_key]
  rw [find_char hsh2 fuel2 k, hc,
    modelLookup_erase_self (ssorted_contents hsh) k]

theorem removal_completeness_witness :
    (BTree.remove 3 (⟨Page.mk true [⟨5, [7]⟩] []⟩ : BTree) 5).bind
      (fun t1 => BTree.find_key 2 t1 5) = some none :=
  removal_completeness (Reachable.add Reachable.base rfl) (by decide) 0 0

/-- C8 theorem: on any API-reachable tree, removing an absent key is not
an error and leaves every lookup unchanged. -/
theorem remove_absent_frame {t : BTree} (hreach : Reachable t) {k : Key}
    (habs : (contents t.root).all (fun e => !(e.key == k)) = true)
    (fuel fuel2 : Nat) :
    (BTree.remove (fuel + 3) t k).isSome = true ∧
    ∀ k1 : Key, (BTree.remove (fuel + 3) t k).bind
        (fun t1 => BTree.find_key (fuel2 + 2) t1 k1) =
      BTree.find_key (fuel2 + 2) t k1 := by
  have hinv := reach_inv hreach
  have hsh : leafShB t.root = true ∨ twoShB t.root = true := by
    simpa [invB] using hinv
  obtain ⟨s, ret, heq, hsh2, hc⟩ := remove_master hsh k fuel
  have habs2 : ∀ e ∈ contents t.root, e.key ≠ k := by
    intro e he
    have := List.all_eq_true.mp habs e he
    simpa using this
  have hceq : contents ret = contents t.root := by
    rw [hc, modelErase_absent habs2]
  constructor
  · rw [BTree.remove, heq]
    rfl
  · intro k1
    rw [BTree.remove, heq]
    simp only [Option.map_some', Option.some_bind]
    simp only [BTree.find_key]
    rw [find_char hsh2 fuel2 k1, find_char hsh fuel2 k1, hceq]

theorem remove_absent_frame_witness :
    (BTree.remove 3 (⟨Page.mk true [⟨5, [7]⟩] []⟩ : BTree) 9).isSome = true ∧
    (BTree.remove 3 (⟨Page.mk true [⟨5, [7]⟩] []⟩ : BTree) 9).bind
        (fun t1 => BTree.find_key 2 t1 5) =
      BTree.find_key 2 (⟨Page.mk true [⟨5, [7]⟩] []⟩ : BTree) 5 :=
  ⟨(remove_absent_frame (Reachable.add Reachable.base rfl) (by decide) 0 0).1,
   (remove_absent_frame (Reachable.add Reachable.base rfl) (by decide) 0 0).2 5⟩

/-- C5 theorem: at an internal node that holds the removed key as one of
its own entries (entry `e` at position `j`, so `e` separates children
`pred` and `succ`), `remove` behaves as follows: if `pred` has more than
`DEGREE - 1` entries, the separator is replaced by the predecessor key of
`pred`, which is then recursively deleted from `pred`; else if `succ` has
more than `DEGREE - 1` entries, symmetrically with the successor; else
the two children are merged around the separator, the key is recursively
deleted from the merged node, and when this leaves the node with zero
entries the merged node is the page returned (so it replaces the current
node); the second conjunct shows the tree installs the returned page as
the new root when the current node is the root. -/
theorem remove_separator_cases {p : Page} {k : Key} (fuel : Nat)
    (hbot : p.bottom = false) (hsort : SSorted p.keys)
    {j : Nat} {e : SKey} (hj : p.keys[j]? = some e) (hek : e.key = k)
    {pred succ : Page} (hpred : p.children[j]? = some pred)
    (hsucc : p.children[j + 1]? = some succ) :
    (Page.remove (fuel + 1) p k =
      if DEGREE ≤ pred.keys.length then
        match Page.find_predecessor fuel pred with
        | none => none
        | some pk =>
          match Page.remove fuel pred pk.key with
          | none => none
          | some pr =>
            some (Page.mk p.bottom (p.keys.set j pk) (p.children.set j pr.1),
                  Page.mk p.bottom (p.keys.set j pk) (p.children.set j pr.1))
      else if DEGREE ≤ succ.keys.length then
        match Page.find_successor fuel succ with
        | none => none
        | some sk =>
          match Page.remove fuel succ sk.key with
          | none => none
          | some sr =>
            some (Page.mk p.bottom (p.keys.set j sk) (p.children.set (j + 1) sr.1),
                  Page.mk p.bottom (p.keys.set j sk) (p.children.set (j + 1) sr.1))
      else
        match Page.remove fuel (mergedNode e pred succ) k with
        | none => none
        | some mr =>
          if (p.keys.eraseIdx j).length = 0 then
            some (Page.mk p.bottom (p.keys.eraseIdx j)
                    ((p.children.eraseIdx (j + 1)).set j mr.1), mr.1)
          else
            some (Page.mk p.bottom (p.keys.eraseIdx j)
                    ((p.children.eraseIdx (j + 1)).set j mr.1),
                  Page.mk p.bottom (p.keys.eraseIdx j)
                    ((p.children.eraseIdx (j + 1)).set j mr.1))) ∧
    (∀ res, Page.remove (fuel + 1) p k = some res →
      BTree.remove (fuel + 1) ⟨p⟩ k = some ⟨res.2⟩) := by
  obtain ⟨b, ks, cs⟩ := p
  simp only [Page.bottom] at hbot
  simp only [Page.keys] at hsort hj
  simp only [Page.children] at hpred hsucc
  subst hbot
  have hb : bisect_right ks k = j + 1 := bisect_found hsort hj hek
  have hbound : j + 1 < cs.length := (List.getElem?_eq_some.mp hsucc).1
  constructor
  · simp only [Page.remove, Page.is_external, Page.bottom, Page.keys, Page.children,
      Bool.false_eq_true, if_false, hb, Nat.add_sub_cancel, hj, Page.merge, hek,
      beq_self_eq_true, if_true, hpred, hsucc, if_pos hbound, mergedNode,
      List.set_set]
  · intro res hres
    simp only [BTree.remove]
    rw [hres]
    rfl

theorem remove_separator_cases_witness :
    (Page.remove (5 + 1) C5page 100).map (fun pr => contents pr.2) =
      some (((List.range 15).map (fun j => (⟨(j : Int), [(j : Int)]⟩ : SKey))) ++
        [⟨15, [15]⟩] ++ C5R) := by
  rw [(@remove_separator_cases C5page 100 5 rfl (by decide) 0 ⟨100, [9]⟩ rfl rfl
    (Page.mk true C5L []) (Page.mk true C5R []) rfl rfl).1]
  rfl

/-- C6 counterexample: on a two-level tree whose root has one separator
and two minimum children, removing a key of the left child makes the
code take the merge branch, delete the key inside the merged node and
return the merged node as the collapsed root with no retry; the
behaviour the claim describes (merge, then retry the deletion at the
current node) would instead re-enter `remove` on a node with no keys and
raise IndexError. -/
theorem case3_retry_counterexample :
    (Page.remove 9 cexPage 3).isSome = true ∧
    (Page.remove 9 cexPage 3).map (fun pr => contents pr.2) =
      some (modelErase (cexL ++ ⟨100, [9]⟩ :: cexR) 3) ∧
    (claimedRepairRetry 9 cexPage 3).isNone = true := by
  refine ⟨by decide, by rfl, by decide⟩

/-- C6 theorem (amended): at an internal node where the removed key is
not among the node's own entries and the child that must contain it has
exactly `DEGREE - 1` entries, the repair runs before descending and in
this preference order: borrow from the right sibling if it exists and
has more than `DEGREE - 1` entries, else borrow from the left sibling if
it exists and has more than `DEGREE - 1` entries, else merge the child
with a sibling around the separator `keys[ind]`.  After a borrow the
deletion is retried at the current node; after a merge the key is first
deleted from the merged node, and then either the merged node is
returned as the replacement when the node is left with no entries (no
retry), or the deletion is retried at the current node. -/
theorem remove_absent_child_repair {p : Page} {k : Key} (fuel : Nat)
    (hbot : p.bottom = false)
    (habs : ∀ e ∈ p.keys, e.key ≠ k)
    {sep : SKey} (hsep : p.keys[bisect_right p.keys k - 1]? = some sep)
    {ch : Page}
    (hch : p.children[if sep.key < k then bisect_right p.keys k - 1 + 1
        else bisect_right p.keys k - 1]? = some ch)
    (hmin : ch.keys.length = DEGREE - 1) :
    Page.remove (fuel + 1) p k =
      (let ind := bisect_right p.keys k - 1
       let needed := if sep.key < k then ind + 1 else ind
       if needed + 1 < p.children.length &&
           decide (DEGREE - 1 < ((p.children.getD (needed + 1) default).keys.length)) then
         match p.borrow_from_right needed with
         | none => none
         | some p1 =>
           match Page.remove fuel p1 k with
           | none => none
           | some pr => some (pr.1, pr.1)
       else if 0 < needed &&
           decide (DEGREE - 1 < ((p.children.getD (needed - 1) default).keys.length)) then
         match p.borrow_from_left ind needed with
         | none => none
         | some p1 =>
           match Page.remove fuel p1 k with
           | none => none
           | some pr => some (pr.1, pr.1)
       else
         match p.children[ind]?, p.children[ind + 1]? with
         | some cl, some cr =>
           match p.merge ind cl cr with
           | none => none
           | some m =>
             match Page.remove fuel m.2 k with
             | none => none
             | some mr =>
               let p2 := Page.mk m.1.bottom m.1.keys (m.1.children.set ind mr.1)
               if p2.keys.length = 0 then some (p2, mr.1)
               else
                 match Page.remove fuel p2 k with
                 | none => none
                 | some qr => some (qr.1, qr.1)
         | _, _ => none) := by
  obtain ⟨b, ks, cs⟩ := p
  simp only [Page.bottom] at hbot
  simp only [Page.keys] at habs hsep hmin
  simp only [Page.children, Page.keys] at hch
  subst hbot
  have hsepne : (sep.key == k) = false := by
    have hmemsep : sep ∈ ks := by
      rcases List.getElem?_eq_some.mp hsep with ⟨hlt, hget⟩
      exact hget ▸ List.getElem_mem hlt
    simp [habs sep hmemsep]
  simp only [Page.remove, Page.is_external, Page.bottom, Page.keys, Page.children,
    Bool.false_eq_true, if_false, hsep, hsepne, hch, if_pos hmin]

theorem remove_absent_child_repair_witness :
    (Page.remove (8 + 1)
        (Page.mk false [⟨100, [9]⟩] [Page.mk true cexL [], Page.mk true C6R []]) 3).map
      (fun pr => contents pr.2) =
      some (removeKeysLeaf (cexL ++ [⟨100, [9]⟩]) 3 ++ ⟨200, [0]⟩ :: C6R.tail) := by
  rw [@remove_absent_child_repair
    (Page.mk false [⟨100, [9]⟩] [Page.mk true cexL [], Page.mk true C6R []]) 3 8 rfl
    (by decide) ⟨100, [9]⟩ rfl (Page.mk true cexL []) rfl rfl]
  rfl
